import Mathlib

/-!
# Verification of the vimwiki-server parsing core

Shallow embedding of the vimwiki-server repository's parsing core:
location primitives, the blockquote element, list normalization, the
external-file-link parser, the top-level block parsing loop, and the
element tree (spatial index), together with theorems settling the
specification claims about them.
-/

namespace VimwikiSpec

/-! ## Location primitives

Modelled from the spec: the sources of position.rs and region.rs are not
available (only the module list in lang/utils/mod.rs is); the spec states
that Position is a 1-indexed (line, column) pair ordered line-major /
column-minor, and Region is a (start, end) pair with
contains(pos) true iff start <= pos <= end under that order. -/

/-- A position in a document: 1-indexed line and column. -/
structure Position where
  line : Nat
  column : Nat
deriving DecidableEq, Repr

/-- Line-major, column-minor order on positions (decidable, as Bool). -/
def Position.ple (a b : Position) : Bool :=
  a.line < b.line || (a.line == b.line && a.column ≤ b.column)

/-- A region of a document: start and end positions (end is inclusive). -/
structure Region where
  start : Position
  endPos : Position
deriving DecidableEq, Repr

/-- Inclusive containment test of a position in a region. -/
def Region.contains (r : Region) (p : Position) : Bool :=
  Position.ple r.start p && Position.ple p r.endPos

/-! ## Blockquote line groups

Embedding of vimwiki-core/src/lang/elements/blocks/blockquotes.rs.
A Blockquote wraps a vector of lines (Vec of Cow str); we model the lines
as a list of strings. -/

/-- The lines held by a Blockquote. -/
abbrev BlockquoteLines := List String

/-- line_groups from blockquotes.rs: split the lines on empty lines and
drop the empty chunks.  Rust's slice split yields the (possibly empty)
subslices between separator elements, exactly List.splitOnP. -/
def lineGroups (bq : BlockquoteLines) : List (List String) :=
  (bq.splitOnP (fun line => line.isEmpty)).filter (fun lines => !lines.isEmpty)

/-- line_group_cnt from blockquotes.rs: the number of line groups. -/
def lineGroupCnt (bq : BlockquoteLines) : Nat :=
  (lineGroups bq).length

/-- Spec-side definition for comparison: the maximal runs of consecutive
non-empty lines, in order. -/
def maximalRuns : List String → List (List String)
  | [] => []
  | l :: ls =>
    if l.isEmpty then maximalRuns ls
    else (l :: ls.takeWhile (fun x => !x.isEmpty)) ::
      maximalRuns (ls.dropWhile (fun x => !x.isEmpty))
termination_by ls => ls.length
decreasing_by
  all_goals
    have hle : (List.dropWhile (fun x => !x.isEmpty) ls).length ≤ ls.length :=
      (List.dropWhile_suffix _).length_le
    simp only [List.length_cons]
    omega

/-! ## List normalization

Embedding of vimwiki/src/lang/components/lists/mod.rs.  The fields of
EnhancedListItem are modelled from the spec: item.rs is not under src/;
the spec gives ListItem as marker type, suffix, indentation depth and
contents, plus item-level attributes.  The LC wrapper (component plus
region) is modelled as a pair with a Region. -/

/-- Ordered list marker kinds (modelled from the spec). -/
inductive OrderedKind where
  | number
  | alphaLower
  | alphaUpper
  | romanLower
  | romanUpper
deriving DecidableEq, Repr

/-- Unordered list marker kinds (modelled from the spec). -/
inductive UnorderedKind where
  | hyphen
  | asterisk
deriving DecidableEq, Repr

/-- The marker type of a list item. -/
inductive ListItemType where
  | ordered (kind : OrderedKind)
  | unordered (kind : UnorderedKind)
deriving DecidableEq, Repr

/-- The suffix following a list item marker. -/
inductive ListItemSuffix where
  | period
  | paren
  | none
deriving DecidableEq, Repr

/-- Item-level attributes such as completion state (modelled from the
spec; the exact vocabulary does not matter for the claims). -/
inductive ItemAttribute where
  | todoIncomplete
  | todoComplete
  | other (tag : Nat)
deriving DecidableEq, Repr

/-- An inline component as seen by the list module; the payload is
opaque for these claims. -/
inductive InlineComponent where
  | text (s : String)
  | other (tag : Nat)
deriving DecidableEq, Repr

mutual
/-- An EnhancedListItem: marker type, suffix, indentation position,
contents, attributes (fields modelled from the spec, item.rs missing). -/
inductive EnhancedListItem where
  | mk (item_type : ListItemType) (suffix : ListItemSuffix) (pos : Nat)
      (contents : List (ListItemContent × Region))
      (attributes : List ItemAttribute)

/-- Content of a list item: inline content or a nested sub-list
(lists/mod.rs, enum ListItemContent). -/
inductive ListItemContent where
  | inlineContent (container : List (InlineComponent × Region))
  | list (items : List (EnhancedListItem × Region))
end

/-- Marker type of an item. -/
def EnhancedListItem.item_type : EnhancedListItem → ListItemType
  | .mk t _ _ _ _ => t

/-- Suffix of an item. -/
def EnhancedListItem.suffix : EnhancedListItem → ListItemSuffix
  | .mk _ s _ _ _ => s

/-- Indentation position of an item. -/
def EnhancedListItem.pos : EnhancedListItem → Nat
  | .mk _ _ p _ _ => p

/-- Contents of an item. -/
def EnhancedListItem.contents :
    EnhancedListItem → List (ListItemContent × Region)
  | .mk _ _ _ c _ => c

/-- Attributes of an item. -/
def EnhancedListItem.attributes : EnhancedListItem → List ItemAttribute
  | .mk _ _ _ _ a => a

/-- Replace only the marker type of an item, keeping every other field. -/
def EnhancedListItem.withItemType (t : ListItemType) :
    EnhancedListItem → EnhancedListItem
  | .mk _ s p c a => .mk t s p c a

/-- The List struct of lists/mod.rs: items are located enhanced list
items.  Named WikiList because List is taken in Lean. -/
structure WikiList where
  items : List (EnhancedListItem × Region)

/-- normalize from lists/mod.rs: if the list has items, every item after
the first has its item_type overwritten with the first item's type. -/
def WikiList.normalize (l : WikiList) : WikiList :=
  match l.items with
  | [] => l
  | (head, r) :: tail =>
    ⟨(head, r) ::
      tail.map (fun it => (it.1.withItemType head.item_type, it.2))⟩

/-! ## External file link parser

Embedding of vimwiki/src/lang/parsers/vimwiki/blocks/inline/links/external.rs.
Parsers consume a list of characters and return the value plus the
remaining input.  take_line_while1 is modelled from its use site: it takes
at least one character, stopping at end of line or where the inner
predicate parser (not one of tag | and tag ]]) fails.  Regions (the le
combinator) are irrelevant to the claim and elided. -/

/-- Scheme of an external file link (enum ExternalFileLinkScheme). -/
inductive ExternalFileLinkScheme where
  | Local
  | File
  | Absolute
deriving DecidableEq, Repr

/-- An external file link: scheme, path and optional description. -/
structure ExternalFileLink where
  scheme : ExternalFileLinkScheme
  path : String
  description : Option String
deriving DecidableEq, Repr

/-- nom tag: succeed iff the input starts with the given characters,
consuming them. -/
def tagP (s : List Char) (input : List Char) : Option (List Char) :=
  if s.isPrefixOf input then some (input.drop s.length) else none

/-- Characters taken by take_segment: stop at end of line, at a pipe, or
at a closing ]].  Returns (consumed, rest). -/
def takeSegmentChars : List Char → List Char × List Char
  | [] => ([], [])
  | c :: cs =>
    if c = '\n' ∨ c = '|' ∨ (c = ']' ∧ cs.head? = some ']') then ([], c :: cs)
    else
      let (t, r) := takeSegmentChars cs
      (c :: t, r)

/-- take_segment from external.rs: take_line_while1 of characters that do
not start tag | or tag ]]; fails when no character is taken. -/
def take_segment (input : List Char) : Option (List Char × List Char) :=
  match takeSegmentChars input with
  | ([], _) => none
  | (t, r) => some (t, r)

/-- take_path_and_description from external.rs: a path segment, then
optionally a pipe followed by a description segment (opt backtracks when
the description is absent or fails). -/
def take_path_and_description (input : List Char) :
    Option ((String × Option String) × List Char) :=
  match take_segment input with
  | none => none
  | some (pathChars, rest) =>
    match tagP ['|'] rest with
    | some rest2 =>
      match take_segment rest2 with
      | some (descChars, rest3) =>
        some ((pathChars.asString, some descChars.asString), rest3)
      | none => some ((pathChars.asString, none), rest)
    | none => some ((pathChars.asString, none), rest)

/-- The scheme alternation of external_file_link: the tags local:,
file: and // tried in order, each yielding its scheme. -/
def schemeAlt (r1 : List Char) :
    Option (ExternalFileLinkScheme × List Char) :=
  match tagP ("local:".toList) r1 with
  | some r => some (ExternalFileLinkScheme.Local, r)
  | none =>
    match tagP ("file:".toList) r1 with
    | some r => some (ExternalFileLinkScheme.File, r)
    | none =>
      match tagP ('/':: '/'::[]) r1 with
      | some r => some (ExternalFileLinkScheme.Absolute, r)
      | none => none

/-- external_file_link from external.rs: a [[ prefix, then one of the
scheme tags local:, file:, // followed by path and optional description,
then a ]] suffix. -/
def external_file_link (input : List Char) :
    Option (ExternalFileLink × List Char) :=
  match tagP ('[':: '['::[]) input with
  | none => none
  | some r1 =>
    match schemeAlt r1 with
    | none => none
    | some (scheme, r2) =>
      match take_path_and_description r2 with
      | none => none
      | some ((path, desc), r3) =>
        match tagP (']':: ']'::[]) r3 with
        | none => none
        | some r4 => some (⟨scheme, path, desc⟩, r4)

/-! ## Top-level block parsing loop

Embedding of src/src/lang/parsers/vimwiki/mod.rs.  The sub-parsers for
the individual block constructs (headers.rs, paragraphs.rs, tables.rs,
preformatted.rs, math.rs, blockquotes.rs, divider.rs, tags.rs) are not
under src/, so they are abstract parameters gathered in BlockParsers;
their payloads are elided since nothing in the claims depends on them.
utils::blank_line and utils::non_blank_line are likewise not under src/
and are modelled from the spec and from the comments at their use site:
blank_line parses a single line to end, failing if the line contains
non-whitespace; non_blank_line parses a single non-blank line to end.
Regions are irrelevant to the claims and elided. -/

/-- A parser over the remaining input. -/
def P (α : Type) : Type := List Char → Option (α × List Char)

/-- A block component of a page (enum BlockComponent; payloads of the
variants produced by the missing sub-parsers are elided). -/
inductive BlockComponent where
  | Header
  | Paragraph
  | List
  | Table
  | PreformattedText
  | MathBlock
  | Blockquote
  | Divider
  | TagSequence
  | EmptyLine
  | UnrecognizedLine (text : String)
deriving DecidableEq, Repr

/-- The individual block sub-parsers, abstract because their sources are
not under src/.  A list parser field is included so that the claimed
alternative order (which mentions List) can be stated. -/
structure BlockParsers where
  header : P BlockComponent
  paragraph : P BlockComponent
  list : P BlockComponent
  table : P BlockComponent
  preformatted_text : P BlockComponent
  math_block : P BlockComponent
  blockquote : P BlockComponent
  divider : P BlockComponent
  tag_sequence : P BlockComponent
  /-- Modelled from the spec: the stack of named rule contexts active at
  the deepest failure for a given residual input; the machinery that
  accumulates it (nom context plus LangParserError) is not under src/. -/
  contextsAt : List Char → List String

/-- nom alt: try the parsers in order, returning the first success. -/
def altList {α : Type} : List (P α) → P α
  | [] => fun _ => none
  | p :: rest => fun input =>
    match p input with
    | some r => some r
    | none => altList rest input

/-- The input after the first line: drop the line and its newline. -/
def afterFirstLine (input : List Char) : List Char :=
  (input.dropWhile (fun c => c ≠ '\n')).drop 1

/-- Modelled from the spec: utils::blank_line (not under src/) parses a
single line to end, failing if it contains non-whitespace (comment at
its use site in mod.rs), and fails on empty input. -/
def blank_line : P Unit := fun input =>
  if input.isEmpty then none
  else if (input.takeWhile (fun c => c ≠ '\n')).all (fun c => c.isWhitespace)
  then some ((), afterFirstLine input)
  else none

/-- Modelled from the spec: utils::non_blank_line (not under src/) parses
a single line to end, failing if the line is blank (all whitespace) or
the input is empty. -/
def non_blank_line : P String := fun input =>
  if input.isEmpty then none
  else if (input.takeWhile (fun c => c ≠ '\n')).all (fun c => c.isWhitespace)
  then none
  else some ((input.takeWhile (fun c => c ≠ '\n')).asString,
    afterFirstLine input)

/-- The blank-line alternative of block_component: a blank line parsed
as EmptyLine. -/
def blankAlt : P BlockComponent := fun input =>
  (blank_line input).map (fun r => (BlockComponent.EmptyLine, r.2))

/-- The non-blank-line catch-all alternative of block_component: any
non-blank line accepted verbatim as UnrecognizedLine. -/
def nonblankAlt : P BlockComponent := fun input =>
  (non_blank_line input).map
    (fun r => (BlockComponent.UnrecognizedLine r.1, r.2))

/-- The ordered alternatives of block_component as written in mod.rs
lines 55 to 73: Header, Paragraph, Table, PreformattedText, MathBlock,
Blockquote, Divider, TagSequence, blank line as EmptyLine, and the
non-blank-line catch-all as UnrecognizedLine.  The List alternative is
commented out in the source. -/
def blockAlternatives (env : BlockParsers) : List (P BlockComponent) :=
  [env.header, env.paragraph, env.table, env.preformatted_text,
    env.math_block, env.blockquote, env.divider, env.tag_sequence,
    blankAlt, nonblankAlt]

/-- The alternative order the claim states, which additionally tries the
List parser third, between Paragraph and Table. -/
def claimedAlternatives (env : BlockParsers) : List (P BlockComponent) :=
  [env.header, env.paragraph, env.list, env.table, env.preformatted_text,
    env.math_block, env.blockquote, env.divider, env.tag_sequence,
    blankAlt, nonblankAlt]

/-- block_component from mod.rs: the ordered alternation of the block
alternatives. -/
def block_component (env : BlockParsers) : P BlockComponent :=
  altList (blockAlternatives env)

/-- nom many0 as used by page: repeat the parser until it fails; a
success that does not shrink the input (nom detects the parser returning
the same position) aborts with a Many0 error, modelled by the error
carrying the remaining input at that point. -/
def many0 {α : Type} (p : P α) (input : List Char) :
    Except (List Char) (List α × List Char) :=
  match p input with
  | none => .ok ([], input)
  | some (a, rest) =>
    if _hlt : rest.length < input.length then
      match many0 p rest with
      | .ok (as, rest1) => .ok (a :: as, rest1)
      | .error e => .error e
    else .error input
termination_by input.length

/-- A parse error: the offset of the first unconsumed character, plus
the diagnostic context stack.  Modelled from the spec: LangParserError
(not under src/) carries the residual position and the stack of named
rule contexts active at the deepest failure; the contexts recorded by the
missing sub-parsers are abstracted as a function of the residual input. -/
structure ParseError where
  pos : Nat
  contexts : List String
deriving DecidableEq, Repr

/-- page plus parse_str from mod.rs: run block_component repeatedly
(many0), require all input consumed (all_consuming), and convert a
failure into a ParseError at the first unconsumed character. -/
def parse_str (env : BlockParsers) (input : List Char) :
    Except ParseError (List BlockComponent) :=
  match many0 (block_component env) input with
  | .ok (cs, rest) =>
    if rest.isEmpty then .ok cs
    else .error ⟨input.length - rest.length, env.contextsAt rest⟩
  | .error rest => .error ⟨input.length - rest.length, env.contextsAt rest⟩

/-! ## Element tree (spatial index)

Embedding of vimwiki/src/tree.rs.  The element data model
(crate::elements) is not under src/ except for fragments; the variants
and fields actually read by tree.rs are embedded (DefinitionList, Header,
List, Paragraph, Table recurse into children; every other variant is a
leaf, collapsed into representative leaf constructors).  Located elements
(LE) are Region-value pairs.  The HashMap of nodes is modelled as an
association list whose insert prepends; all inserted keys are fresh. -/

/-- An inline element: only DecoratedText carries nested inline content
(tree.rs lines 301 to 316); the remaining variants are leaves. -/
inductive InlineElement where
  | Text (s : String)
  | DecoratedText (contents : List (Region × InlineElement))
  | Keyword (s : String)
  | Link
  | Tags
  | Math (s : String)
deriving Repr

/-- A table cell: only Cell::Content carries inline content
(tree.rs lines 238 to 247). -/
inductive Cell where
  | Content (container : List (Region × InlineElement))
  | Span
  | Empty
deriving Repr

/-- A table row: only Row::Content carries cells
(tree.rs lines 235 to 250). -/
inductive Row where
  | Content (cells : List (Region × Cell))
  | Divider
deriving Repr

/-- Content of a list item in the element model: inline content or a
nested sub-list, given by its items; each item is its list of located
contents (the only item field tree.rs reads). -/
inductive ItemContent where
  | InlineContent (container : List (Region × InlineElement))
  | Sublist (items : List (Region × List (Region × ItemContent)))
deriving Repr

/-- A block element: the variants with children as matched in
add_block_element (tree.rs lines 163 to 253); leaf variants are
represented by Divider, Blockquote and Other. -/
inductive BlockElement where
  | DefinitionList (termDefs :
      List ((List (Region × InlineElement)) ×
        List (List (Region × InlineElement))))
  | Header (content : List (Region × InlineElement))
  | List (items : List (Region × List (Region × ItemContent)))
  | Paragraph (content : List (Region × InlineElement))
  | Table (rows : List (Region × Row))
  | Divider
  | Blockquote
  | Other
deriving Repr

/-- A reference to a block or inline element (enum ElementRef). -/
inductive ElementRef where
  | Block (e : BlockElement)
  | Inline (e : InlineElement)
deriving Repr

/-- A node of the element tree (struct ElementNode). -/
structure ElementNode where
  root_id : Nat
  parent_id : Option Nat
  element_id : Nat
  element : ElementRef
  region : Region
  children_ids : List Nat
deriving Repr

/-- A page: located top-level block elements plus comments (payload of
the comments elided, they are never read by tree.rs). -/
structure Page where
  elements : List (Region × BlockElement)
  comments : List Unit
deriving Repr

/-- The element tree (struct ElementTree). -/
structure ElementTree where
  page : Page
  root_nodes : List Nat
  nodes : List (Nat × ElementNode)
deriving Repr

/-- The reserved id meaning no node (ElementTree::EMPTY_NODE). -/
def EMPTY_NODE : Nat := 0

/-- Construction state: the counter and the node map. -/
abbrev St : Type := Nat × List (Nat × ElementNode)

/-- add_inline_element plus add_inline_elements_from_container from
tree.rs, fused over a list of located inline elements: each element gets
the next counter id; DecoratedText recurses into its contents with
itself as parent; the node is inserted after its children. -/
def add_inlines (rootId : Nat) (parentId : Option Nat)
    (cs : List (Region × InlineElement)) (st : St) : List Nat × St :=
  match cs with
  | [] => ([], st)
  | (r, e) :: rest =>
    let element_id := st.1
    let (children_ids, st2) :=
      match e with
      | .DecoratedText contents =>
        add_inlines rootId (some element_id) contents (st.1 + 1, st.2)
      | _ => ([], (st.1 + 1, st.2))
    let node : ElementNode :=
      ⟨rootId, parentId, element_id, .Inline e, r, children_ids⟩
    let (ids, st4) :=
      add_inlines rootId parentId rest (st2.1, (element_id, node) :: st2.2)
    (element_id :: ids, st4)

/-- The per-cell loop of the Table arm of add_block_element: only
content cells contribute their inline content. -/
def add_cells (rootId : Nat) (parentId : Nat)
    (cells : List (Region × Cell)) (st : St) : List Nat × St :=
  match cells with
  | [] => ([], st)
  | (_, c) :: rest =>
    let (ids1, st1) :=
      match c with
      | .Content els => add_inlines rootId (some parentId) els st
      | _ => ([], st)
    let (ids2, st2) := add_cells rootId parentId rest st1
    (ids1 ++ ids2, st2)

/-- The per-row loop of the Table arm of add_block_element: only content
rows contribute their cells. -/
def add_table_rows (rootId : Nat) (parentId : Nat)
    (rows : List (Region × Row)) (st : St) : List Nat × St :=
  match rows with
  | [] => ([], st)
  | (_, row) :: rest =>
    let (ids1, st1) :=
      match row with
      | .Content cells => add_cells rootId parentId cells st
      | .Divider => ([], st)
    let (ids2, st2) := add_table_rows rootId parentId rest st1
    (ids1 ++ ids2, st2)

/-- The per-definition loop of the DefinitionList arm of
add_block_element. -/
def add_containers (rootId : Nat) (parentId : Nat)
    (ds : List (List (Region × InlineElement))) (st : St) : List Nat × St :=
  match ds with
  | [] => ([], st)
  | d :: rest =>
    let (ids1, st1) := add_inlines rootId (some parentId) d st
    let (ids2, st2) := add_containers rootId parentId rest st1
    (ids1 ++ ids2, st2)

/-- The per-term loop of the DefinitionList arm of add_block_element:
each term contributes its term content then its definitions. -/
def add_termdefs (rootId : Nat) (parentId : Nat)
    (tds : List ((List (Region × InlineElement)) ×
      List (List (Region × InlineElement)))) (st : St) : List Nat × St :=
  match tds with
  | [] => ([], st)
  | (term, defs) :: rest =>
    let (ids1, st1) := add_inlines rootId (some parentId) term st
    let (ids2, st2) := add_containers rootId parentId defs st1
    let (ids3, st3) := add_termdefs rootId parentId rest st2
    (ids1 ++ ids2 ++ ids3, st3)

/-- Root-id resolution of add_block_element (tree.rs lines 151 to 155):
a root id that is EMPTY_NODE means the element itself is the root. -/
def resolveRoot (rootId element_id : Nat) : Nat :=
  if rootId ≠ EMPTY_NODE then rootId else element_id

mutual
/-- The per-content loop of the List arm of add_block_element: inline
content contributes inline children; a sub-list contributes one block
node built exactly as add_block_element builds it (the recursive
add_block_element call of tree.rs lines 213 to 220, inlined here with
the same root-id resolution). -/
def add_item_contents (rootId : Nat) (parentId : Nat)
    (cs : List (Region × ItemContent)) (st : St) : List Nat × St :=
  match cs with
  | [] => ([], st)
  | (r, c) :: rest =>
    let (ids1, st1) :=
      match c with
      | .InlineContent els => add_inlines rootId (some parentId) els st
      | .Sublist items =>
        let element_id := st.1
        let root_id := resolveRoot rootId element_id
        let (children_ids, st2) :=
          add_list_items root_id element_id items (st.1 + 1, st.2)
        let node : ElementNode :=
          ⟨root_id, some parentId, element_id, .Block (.List items), r,
            children_ids⟩
        ([element_id], (st2.1, (element_id, node) :: st2.2))
    let (ids2, st3) := add_item_contents rootId parentId rest st1
    (ids1 ++ ids2, st3)

/-- The per-item loop of the List arm of add_block_element: each item
contributes the children of its contents. -/
def add_list_items (rootId : Nat) (parentId : Nat)
    (items : List (Region × List (Region × ItemContent))) (st : St) :
    List Nat × St :=
  match items with
  | [] => ([], st)
  | (_, contents) :: rest =>
    let (ids1, st1) := add_item_contents rootId parentId contents st
    let (ids2, st2) := add_list_items rootId parentId rest st1
    (ids1 ++ ids2, st2)
end

/-- add_block_element from tree.rs: allocate the id, resolve the root
id, build the children per variant, then insert the node. -/
def add_block_element (rootId : Nat) (parentId : Option Nat)
    (element : BlockElement) (region : Region) (st : St) : Nat × St :=
  let element_id := st.1
  let st1 : St := (st.1 + 1, st.2)
  let root_id := resolveRoot rootId element_id
  let (children_ids, st2) :=
    match element with
    | .DefinitionList tds => add_termdefs root_id element_id tds st1
    | .Header content => add_inlines root_id (some element_id) content st1
    | .List items => add_list_items root_id element_id items st1
    | .Paragraph content => add_inlines root_id (some element_id) content st1
    | .Table rows => add_table_rows root_id element_id rows st1
    | _ => ([], st1)
  let node : ElementNode :=
    ⟨root_id, parentId, element_id, .Block element, region, children_ids⟩
  (element_id, (st2.1, (element_id, node) :: st2.2))

/-- The loop of from_page over the page's top-level elements. -/
def add_page_elements (es : List (Region × BlockElement)) (st : St) :
    List Nat × St :=
  match es with
  | [] => ([], st)
  | (r, e) :: rest =>
    let (id, st1) := add_block_element EMPTY_NODE none e r st
    let (ids, st2) := add_page_elements rest st1
    (id :: ids, st2)

/-- from_page from tree.rs: the counter starts at EMPTY_NODE plus one;
every top-level element becomes a root. -/
def ElementTree.from_page (page : Page) : ElementTree :=
  let (roots, st) := add_page_elements page.elements (EMPTY_NODE + 1, [])
  ⟨page, roots, st.2⟩

/-- Node lookup in the map. -/
def ElementTree.getNode (t : ElementTree) (id : Nat) : Option ElementNode :=
  t.nodes.lookup id

/-- root_nodes from tree.rs: the root ids resolved through the map,
skipping ids that fail to resolve. -/
def ElementTree.rootNodesList (t : ElementTree) : List ElementNode :=
  t.root_nodes.filterMap t.getNode

/-- find_root_at from tree.rs: the first root node whose region contains
the position. -/
def ElementTree.find_root_at (t : ElementTree) (p : Position) :
    Option ElementNode :=
  t.rootNodesList.find? (fun n => n.region.contains p)

/-- children_for from tree.rs: the children ids resolved through the
map, skipping ids that fail to resolve. -/
def ElementTree.children_for (t : ElementTree) (n : ElementNode) :
    List ElementNode :=
  n.children_ids.filterMap t.getNode

/-- parent_for from tree.rs. -/
def ElementTree.parent_for (t : ElementTree) (n : ElementNode) :
    Option ElementNode :=
  n.parent_id.bind t.getNode

/-- root_for from tree.rs, with the panicking expect branch made
explicit: none models the panic Tree mutated after construction. -/
def ElementTree.root_forOpt (t : ElementTree) (n : ElementNode) :
    Option ElementNode :=
  t.getNode n.root_id

/-- The descent loop of find_deepest_at.  The source loops without fuel;
the fuel here is an upper bound on the chain length, sufficient for
every tree built by from_page because children ids strictly exceed their
parent's id. -/
def descend (t : ElementTree) (p : Position) :
    Nat → ElementNode → ElementNode
  | 0, curr => curr
  | fuel + 1, curr =>
    match (t.children_for curr).find? (fun n => n.region.contains p) with
    | some next => descend t p fuel next
    | none => curr

/-- find_deepest_at from tree.rs: descend from the containing root to
the first child containing the position, repeatedly. -/
def ElementTree.find_deepest_at (t : ElementTree) (p : Position) :
    Option ElementNode :=
  (t.find_root_at p).map (descend t p (t.nodes.length + 1))

/-- One descent step: the first child whose region contains the
position. -/
def descendStep (t : ElementTree) (p : Position) (n : ElementNode) :
    Option ElementNode :=
  (t.children_for n).find? (fun c => c.region.contains p)

/-- The node reached from a by repeatedly descending to the first child
whose region contains the position, stopping when no child matches: the
specification of the find_deepest_at loop. -/
inductive DescendsTo (t : ElementTree) (p : Position) :
    ElementNode → ElementNode → Prop where
  | done (n : ElementNode) (h : descendStep t p n = none) : DescendsTo t p n n
  | step (a b c : ElementNode) (h : descendStep t p a = some b)
      (hbc : DescendsTo t p b c) : DescendsTo t p a c

/-- The keys of a node map. -/
def keysOf (ns : List (Nat × ElementNode)) : List Nat := ns.map Prod.fst

/-- Well-formedness of the slice of nodes produced by one add call with
counter interval lo to hi and resolved root rootId: the keys are exactly
the interval, every node records its key as element_id and rootId as
root_id, and children ids are strictly greater than their parent's key,
below hi, present among the keys, and strictly increasing. -/
def SegWF (news : List (Nat × ElementNode)) (lo hi rootId : Nat) : Prop :=
  (∀ k, k ∈ keysOf news ↔ (lo ≤ k ∧ k < hi)) ∧
  (keysOf news).Nodup ∧
  (∀ pr ∈ news, pr.2.element_id = pr.1 ∧ pr.2.root_id = rootId ∧
    (∀ ch ∈ pr.2.children_ids,
      pr.1 < ch ∧ ch < hi ∧ ch ∈ keysOf news) ∧
    pr.2.children_ids.Chain' (· < ·))

/-- Properties of the id list returned by one add call: ids lie in the
counter interval, are strictly increasing, and are keys of the new
nodes. -/
def IdsWF (ids : List Nat) (news : List (Nat × ElementNode))
    (lo hi : Nat) : Prop :=
  (∀ i ∈ ids, lo ≤ i ∧ i < hi ∧ i ∈ keysOf news) ∧ ids.Chain' (· < ·)

/-- Global well-formedness of a tree as built by from_page. -/
def TreeWF (t : ElementTree) : Prop :=
  (keysOf t.nodes).Nodup ∧
  EMPTY_NODE ∉ keysOf t.nodes ∧
  (∀ pr ∈ t.nodes, pr.2.element_id = pr.1 ∧
    pr.2.root_id ∈ keysOf t.nodes ∧
    (∀ ch ∈ pr.2.children_ids, pr.1 < ch ∧ ch ∈ keysOf t.nodes) ∧
    pr.2.children_ids.Chain' (· < ·)) ∧
  (∀ id ∈ t.root_nodes,
    ∃ n, (id, n) ∈ t.nodes ∧ n.parent_id = none ∧ n.root_id = id)

/-- Summary of one add call that returns a list of child ids: the
counter does not decrease, the new nodes are prepended, they form a
well-formed segment over the counter interval with the given resolved
root, and the returned ids are well-formed over that segment. -/
def StepSpec (rootId : Nat) (st : St) (out : List Nat × St) : Prop :=
  st.1 ≤ out.2.1 ∧
  ∃ news, out.2.2 = news ++ st.2 ∧ SegWF news st.1 out.2.1 rootId ∧
    IdsWF out.1 news st.1 out.2.1

/-- Summary of one add_block_element call: it returns the entry counter
as the id, and the new segment is rooted at the resolved root and led
by a node carrying the given parent. -/
def BlockSpec (rootId : Nat) (parentId : Option Nat) (st : St)
    (out : Nat × St) : Prop :=
  out.1 = st.1 ∧ st.1 < out.2.1 ∧
  ∃ news, out.2.2 = news ++ st.2 ∧
    SegWF news st.1 out.2.1 (resolveRoot rootId st.1) ∧
    ∃ nd, (st.1, nd) ∈ news ∧ nd.parent_id = parentId ∧
      nd.element_id = st.1 ∧ nd.root_id = resolveRoot rootId st.1

/-! ## Hypotheses on the abstract sub-parsers, and concrete data for
witnesses and counterexamples. -/

/-- The parser that always fails. -/
def failP {α : Type} : P α := fun _ => none

/-- A parser whose remaining input is always a suffix of its input: the
behavior of every real nom parser over a span. -/
def IsSuffixParser {α : Type} (p : P α) : Prop :=
  ∀ input a rest, p input = some (a, rest) → rest <:+ input

/-- A parser that consumes at least one character whenever it
succeeds. -/
def IsProgressParser {α : Type} (p : P α) : Prop :=
  ∀ input a rest, p input = some (a, rest) → rest.length < input.length

/-- All block alternatives return suffixes of their input. -/
def EnvSuffix (env : BlockParsers) : Prop :=
  ∀ p ∈ blockAlternatives env, IsSuffixParser p

/-- All block alternatives consume at least one character on success:
the progress discipline the spec requires from every block rule. -/
def EnvProgress (env : BlockParsers) : Prop :=
  ∀ p ∈ blockAlternatives env, IsProgressParser p

/-- An environment in which every abstract sub-parser fails, leaving
only the two concrete catch-all alternatives. -/
def trivEnv : BlockParsers :=
  ⟨failP, failP, failP, failP, failP, failP, failP, failP, failP,
    fun _ => []⟩

/-- An environment whose list parser succeeds on a chosen input, while
every other abstract sub-parser fails: it separates the claimed
alternative order (which consults the list parser) from the order
written in the source (which does not). -/
def cexEnv : BlockParsers where
  header := failP
  paragraph := failP
  list := fun input =>
    if input = "- x".toList then some (BlockComponent.List, []) else none
  table := failP
  preformatted_text := failP
  math_block := failP
  blockquote := failP
  divider := failP
  tag_sequence := failP
  contextsAt := fun _ => []

/-- The page used by the tree witnesses: a divider and a list whose
single item holds a sub-list, so the built tree has a parent node with
one child to descend into. -/
def witPage : Page :=
  ⟨[(⟨⟨1, 1⟩, ⟨1, 3⟩⟩, .Divider),
    (⟨⟨2, 1⟩, ⟨2, 7⟩⟩, .List
      [(⟨⟨2, 1⟩, ⟨2, 7⟩⟩,
        [(⟨⟨2, 4⟩, ⟨2, 7⟩⟩, .Sublist [(⟨⟨2, 4⟩, ⟨2, 7⟩⟩, [])])])])], []⟩

/-- A two-item list with distinct marker types, suffixes and regions,
used by the normalization witness. -/
def witList : WikiList :=
  ⟨[(.mk (.ordered .number) .period 0 [] [], ⟨⟨1, 1⟩, ⟨1, 4⟩⟩),
    (.mk (.unordered .hyphen) .paren 2 [] [.todoComplete],
      ⟨⟨2, 1⟩, ⟨2, 4⟩⟩)]⟩

/-! # Theorems

## Blockquote line groups (C10) -/

theorem dropWhile_head_not {α : Type} (q : α → Bool) :
    ∀ (l : List α) (d : α) (t : List α),
      l.dropWhile q = d :: t → q d = false := by
  intro l
  induction l with
  | nil => intro d t h; simp at h
  | cons a as ih =>
    intro d t h
    rw [List.dropWhile_cons] at h
    by_cases ha : q a
    · simp only [ha, if_true] at h
      exact ih d t h
    · simp only [ha, if_false] at h
      obtain ⟨rfl, -⟩ := List.cons.injEq .. ▸ h
      · simpa using ha

theorem maximalRuns_nil : maximalRuns [] = [] := by
  rw [maximalRuns.eq_def]

theorem maximalRuns_cons (l : String) (ls : List String) :
    maximalRuns (l :: ls) =
      if l.isEmpty then maximalRuns ls
      else (l :: ls.takeWhile (fun x => !x.isEmpty)) ::
        maximalRuns (ls.dropWhile (fun x => !x.isEmpty)) := by
  rw [maximalRuns.eq_def]

theorem splitOnP_structure {α : Type} (p : α → Bool) (ls : List α) :
    ls.splitOnP p = ls.takeWhile (fun a => !p a) ::
      (match ls.dropWhile (fun a => !p a) with
        | [] => []
        | _ :: t => t.splitOnP p) := by
  induction ls with
  | nil => simp
  | cons a as ih =>
    by_cases h : p a
    · simp [List.splitOnP_cons, h]
    · simp only [List.splitOnP_cons, h, if_false, List.takeWhile_cons,
        List.dropWhile_cons, Bool.not_false, if_true, ih,
        List.modifyHead_cons]
      simp

theorem lineGroups_eq_maximalRuns_aux :
    ∀ (n : Nat) (ls : List String), ls.length ≤ n →
      lineGroups ls = maximalRuns ls := by
  intro n
  induction n with
  | zero =>
    intro ls hls
    rw [List.length_eq_zero.mp (Nat.le_zero.mp hls)]
    simp [lineGroups, maximalRuns_nil]
  | succ n ih =>
    intro ls hls
    match ls with
    | [] => simp [lineGroups, maximalRuns_nil]
    | l :: ls1 =>
      have hls1 : ls1.length ≤ n := by
        simp only [List.length_cons] at hls; omega
      rw [maximalRuns_cons]
      by_cases hl : l.isEmpty
      · rw [if_pos hl]
        have h1 : lineGroups (l :: ls1) = lineGroups ls1 := by
          simp [lineGroups, List.splitOnP_cons, hl]
        rw [h1]
        exact ih ls1 hls1
      · rw [if_neg hl]
        unfold lineGroups
        rw [List.splitOnP_cons, if_neg hl]
        rw [splitOnP_structure (fun line => line.isEmpty) ls1,
          List.modifyHead_cons, List.filter_cons]
        simp only [List.isEmpty_cons, Bool.not_false, if_true]
        congr 1
        cases hdrop : ls1.dropWhile (fun a => !a.isEmpty) with
        | nil => simp [maximalRuns_nil]
        | cons d t =>
          have hd : d.isEmpty := by
            have h3 := dropWhile_head_not (fun a => !a.isEmpty) ls1 d t hdrop
            simpa using h3
          have ht : t.length ≤ n := by
            have h2 : (d :: t).length ≤ ls1.length :=
              hdrop ▸ (List.dropWhile_suffix _).length_le
            simp only [List.length_cons] at h2
            omega
          rw [maximalRuns_cons, if_pos hd]
          exact ih t ht

theorem maximalRuns_flatten (ls : List String) :
    (maximalRuns ls).flatten = ls.filter (fun l => !l.isEmpty) := by
  induction ls using maximalRuns.induct with
  | case1 => simp [maximalRuns_nil]
  | case2 l ls1 hl ih =>
    rw [maximalRuns_cons, if_pos hl, List.filter_cons]
    simp only [hl, Bool.not_true, if_false]
    exact ih
  | case3 l ls1 hl ih =>
    rw [maximalRuns_cons, if_neg hl]
    simp only [List.flatten_cons, ih, List.filter_cons]
    simp only [Bool.not_eq_true] at hl
    simp only [hl, Bool.not_false, if_true, List.cons_append,
      List.cons.injEq, true_and]
    conv_rhs => rw [← List.takeWhile_append_dropWhile
      (p := fun x : String => !x.isEmpty) (l := ls1)]
    rw [List.filter_append]
    congr 1
    exact (List.filter_eq_self.mpr
      (fun a ha => List.mem_takeWhile_imp
        (p := fun x : String => !x.isEmpty) ha)).symm

theorem maximalRuns_nil_of_all_empty :
    ∀ (ls : List String), (∀ l ∈ ls, l.isEmpty) → maximalRuns ls = [] := by
  intro ls
  induction ls using maximalRuns.induct with
  | case1 => intro _; exact maximalRuns_nil
  | case2 l ls1 hl ih =>
    intro h
    rw [maximalRuns_cons, if_pos hl]
    exact ih (fun x hx => h x (List.mem_cons_of_mem _ hx))
  | case3 l ls1 hl _ =>
    intro h
    exact absurd (h l (List.mem_cons_self _ _)) hl

/-- C10: line_groups yields exactly the maximal runs of consecutive
non-empty lines, in order: it never yields an empty group, every
non-empty line appears in exactly one group (their concatenation is the
subsequence of non-empty lines, in order), and line_group_cnt equals
the number of maximal runs, so an all-empty blockquote has zero line
groups. -/
theorem spec_C10 (bq : BlockquoteLines) :
    lineGroups bq = maximalRuns bq ∧
    (∀ g ∈ lineGroups bq, g ≠ []) ∧
    (lineGroups bq).flatten = bq.filter (fun l => !l.isEmpty) ∧
    lineGroupCnt bq = (maximalRuns bq).length ∧
    ((∀ l ∈ bq, l.isEmpty) → lineGroupCnt bq = 0) := by
  have heq : lineGroups bq = maximalRuns bq :=
    lineGroups_eq_maximalRuns_aux bq.length bq le_rfl
  refine ⟨heq, ?_, ?_, ?_, ?_⟩
  · intro g hg
    have := List.of_mem_filter hg
    simpa using this
  · rw [heq]; exact maximalRuns_flatten bq
  · rw [lineGroupCnt, heq]
  · intro hall
    rw [lineGroupCnt, heq, maximalRuns_nil_of_all_empty bq hall]
    rfl

/-- Witness for C10 at concrete inputs. -/
theorem spec_C10_witness :
    lineGroups ["a", "", "b", "c"] = maximalRuns ["a", "", "b", "c"] ∧
    lineGroupCnt ["", ""] = 0 :=
  ⟨(spec_C10 ["a", "", "b", "c"]).1,
    (spec_C10 ["", ""]).2.2.2.2 (by decide)⟩

/-! ## List normalization (C6, C7) -/

theorem withItemType_item_type (t : ListItemType) (x : EnhancedListItem) :
    (x.withItemType t).item_type = t := by
  cases x with | mk a b c d e => rfl

theorem withItemType_suffix (t : ListItemType) (x : EnhancedListItem) :
    (x.withItemType t).suffix = x.suffix := by
  cases x with | mk a b c d e => rfl

theorem withItemType_pos (t : ListItemType) (x : EnhancedListItem) :
    (x.withItemType t).pos = x.pos := by
  cases x with | mk a b c d e => rfl

theorem withItemType_contents (t : ListItemType) (x : EnhancedListItem) :
    (x.withItemType t).contents = x.contents := by
  cases x with | mk a b c d e => rfl

theorem withItemType_attributes (t : ListItemType) (x : EnhancedListItem) :
    (x.withItemType t).attributes = x.attributes := by
  cases x with | mk a b c d e => rfl

theorem withItemType_withItemType (t : ListItemType) (x : EnhancedListItem) :
    (x.withItemType t).withItemType t = x.withItemType t := by
  cases x with | mk a b c d e => rfl

/-- C6: normalize rewrites the marker type of every item after the
first to equal the first item's marker type and changes nothing else:
the length and the first item are unchanged, and every item keeps its
region, suffix, indentation, attributes and contents (in particular any
nested sub-list inside the contents is untouched). -/
theorem spec_C6 (l : WikiList) :
    l.normalize.items.length = l.items.length ∧
    l.normalize.items.head? = l.items.head? ∧
    (∀ (i : Nat) (itm : EnhancedListItem) (r : Region),
      l.items[i]? = some (itm, r) →
      ∃ itm2 : EnhancedListItem,
        l.normalize.items[i]? = some (itm2, r) ∧
        itm2.suffix = itm.suffix ∧ itm2.pos = itm.pos ∧
        itm2.contents = itm.contents ∧
        itm2.attributes = itm.attributes ∧
        (∀ (h0 : EnhancedListItem) (r0 : Region),
          l.items[0]? = some (h0, r0) →
          itm2.item_type =
            if i = 0 then itm.item_type else h0.item_type)) := by
  obtain ⟨items⟩ := l
  cases items with
  | nil =>
    refine ⟨rfl, rfl, ?_⟩
    intro i itm r h
    simp at h
  | cons hd tail =>
    obtain ⟨head, r0⟩ := hd
    refine ⟨by simp [WikiList.normalize], by simp [WikiList.normalize], ?_⟩
    intro i itm r h
    match i with
    | 0 =>
      simp only [List.getElem?_cons_zero, Option.some.injEq] at h
      obtain ⟨h1, h2⟩ := Prod.mk.injEq .. ▸ h
      refine ⟨itm, ?_, rfl, rfl, rfl, rfl, ?_⟩
      · simp [WikiList.normalize, ← h1, ← h2]
      · intro h0 hr0 hh
        simp only [List.getElem?_cons_zero, Option.some.injEq] at hh
        simp [if_pos]
    | j + 1 =>
      simp only [List.getElem?_cons_succ] at h
      refine ⟨itm.withItemType head.item_type, ?_, withItemType_suffix .. ,
        withItemType_pos .. , withItemType_contents .. ,
        withItemType_attributes .. , ?_⟩
      · simp [WikiList.normalize, List.getElem?_map, h]
      · intro h0 hr0 hh
        simp only [List.getElem?_cons_zero, Option.some.injEq] at hh
        obtain ⟨hh1, -⟩ := Prod.mk.injEq .. ▸ hh
        rw [withItemType_item_type, if_neg (by omega), ← hh1]

/-- Witness for C6: in the two-item list, the second item's marker type
becomes the first item's while region, suffix, indentation, contents
and attributes are unchanged. -/
theorem spec_C6_witness :
    ∃ itm2 : EnhancedListItem,
      witList.normalize.items[1]? = some (itm2, ⟨⟨2, 1⟩, ⟨2, 4⟩⟩) ∧
      itm2.suffix = ListItemSuffix.paren ∧ itm2.pos = 2 ∧
      itm2.contents = [] ∧
      itm2.attributes = [ItemAttribute.todoComplete] ∧
      (∀ (h0 : EnhancedListItem) (r0 : Region),
        witList.items[0]? = some (h0, r0) →
        itm2.item_type =
          if 1 = 0 then ListItemType.unordered UnorderedKind.hyphen
          else h0.item_type) :=
  (spec_C6 witList).2.2 1
    (.mk (.unordered .hyphen) .paren 2 [] [.todoComplete])
    ⟨⟨2, 1⟩, ⟨2, 4⟩⟩ rfl

/-- C7: normalize is idempotent: normalizing twice yields the same list
as normalizing once. -/
theorem spec_C7 (l : WikiList) : l.normalize.normalize = l.normalize := by
  obtain ⟨items⟩ := l
  cases items with
  | nil => rfl
  | cons hd tail =>
    obtain ⟨head, r0⟩ := hd
    simp only [WikiList.normalize, List.map_map]
    have hff : ((fun it : EnhancedListItem × Region =>
        (EnhancedListItem.withItemType head.item_type it.1, it.2)) ∘
        (fun it : EnhancedListItem × Region =>
          (EnhancedListItem.withItemType head.item_type it.1, it.2))) =
        (fun it : EnhancedListItem × Region =>
          (EnhancedListItem.withItemType head.item_type it.1, it.2)) := by
      funext it
      simp only [Function.comp_apply, withItemType_withItemType]
    rw [hff]

/-! ## External file link (C8) -/

theorem tagP_some (s input r : List Char) (h : tagP s input = some r) :
    s.isPrefixOf input = true ∧ r = input.drop s.length := by
  unfold tagP at h
  by_cases hp : s.isPrefixOf input
  · rw [if_pos hp] at h
    exact ⟨hp, (Option.some.injEq .. ▸ h).symm⟩
  · rw [if_neg hp] at h
    exact absurd h (by simp)

theorem isPrefixOf_append_drop :
    ∀ (s1 s2 input : List Char), s1.isPrefixOf input →
      s2.isPrefixOf (input.drop s1.length) →
      (s1 ++ s2).isPrefixOf input := by
  intro s1
  induction s1 with
  | nil =>
    intro s2 input h1 h2
    simpa using h2
  | cons a t ih =>
    intro s2 input h1 h2
    cases input with
    | nil => simp at h1
    | cons b rest =>
      simp only [List.cons_append, List.isPrefixOf_cons₂_self] at h1 ⊢
      simp only [List.isPrefixOf_cons₂] at h1 ⊢
      obtain ⟨hab, h1⟩ := Bool.and_eq_true .. ▸ h1
      simp only [List.length_cons, List.drop_succ_cons] at h2
      exact Bool.and_eq_true .. ▸ ⟨hab, ih s2 rest h1 h2⟩

theorem prefix_chain (s1 s2 input r1 : List Char)
    (h1 : tagP s1 input = some r1) (h2 : s2.isPrefixOf r1 = true) :
    (s1 ++ s2).isPrefixOf input = true := by
  obtain ⟨hp, hr⟩ := tagP_some _ _ _ h1
  subst hr
  exact isPrefixOf_append_drop s1 s2 input hp h2

theorem schemeAlt_some (r1 : List Char) (s : ExternalFileLinkScheme)
    (r : List Char) (h : schemeAlt r1 = some (s, r)) :
    "local:".toList.isPrefixOf r1 = true ∨
    "file:".toList.isPrefixOf r1 = true ∨
    ('/':: '/'::[]).isPrefixOf r1 = true := by
  unfold schemeAlt at h
  split at h
  · next hloc => exact Or.inl (tagP_some _ _ _ hloc).1
  · next hloc =>
    split at h
    · next hfile => exact Or.inr (Or.inl (tagP_some _ _ _ hfile).1)
    · next hfile =>
      split at h
      · next hsl => exact Or.inr (Or.inr (tagP_some _ _ _ hsl).1)
      · next hsl => simp at h

theorem external_file_link_prefixes (input : List Char)
    (res : ExternalFileLink × List Char)
    (h : external_file_link input = some res) :
    "[[local:".toList.isPrefixOf input = true ∨
    "[[file:".toList.isPrefixOf input = true ∨
    "[[//".toList.isPrefixOf input = true := by
  unfold external_file_link at h
  split at h
  · simp at h
  · next r1 htag =>
    split at h
    · simp at h
    · next s r2 hscheme =>
      have hsplit1 : "[[local:".toList = ('[':: '['::[]) ++ "local:".toList :=
        by decide
      have hsplit2 : "[[file:".toList = ('[':: '['::[]) ++ "file:".toList :=
        by decide
      have hsplit3 : "[[//".toList = ('[':: '['::[]) ++ '/':: '/'::[] :=
        by decide
      rcases schemeAlt_some r1 s r2 hscheme with hl | hf | ha
      · exact Or.inl (hsplit1 ▸ prefix_chain _ _ _ _ htag hl)
      · exact Or.inr (Or.inl (hsplit2 ▸ prefix_chain _ _ _ _ htag hf))
      · exact Or.inr (Or.inr (hsplit3 ▸ prefix_chain _ _ _ _ htag ha))

/-- C8: parsing [[file:a/b|Desc]] as an external file link succeeds,
consumes the entire input, and yields scheme File, path a/b and
description Desc; the rule accepts links of each of the three scheme
prefixes local:, file: and //, and every successful parse starts with
one of those three scheme prefixes. -/
theorem spec_C8 :
    external_file_link ("[[file:a/b|Desc]]".toList) =
      some (⟨ExternalFileLinkScheme.File, "a/b", some "Desc"⟩, []) ∧
    external_file_link ("[[local:x]]".toList) =
      some (⟨ExternalFileLinkScheme.Local, "x", none⟩, []) ∧
    external_file_link ("[[//x]]".toList) =
      some (⟨ExternalFileLinkScheme.Absolute, "x", none⟩, []) ∧
    (∀ (input : List Char) (res : ExternalFileLink × List Char),
      external_file_link input = some res →
      "[[local:".toList.isPrefixOf input = true ∨
      "[[file:".toList.isPrefixOf input = true ∨
      "[[//".toList.isPrefixOf input = true) :=
  ⟨by decide, by decide, by decide, external_file_link_prefixes⟩

/-- Witness for C8: the success on [[local:x]] starts with one of the
three scheme prefixes. -/
theorem spec_C8_witness :
    "[[local:".toList.isPrefixOf ("[[local:x]]".toList) = true ∨
    "[[file:".toList.isPrefixOf ("[[local:x]]".toList) = true ∨
    "[[//".toList.isPrefixOf ("[[local:x]]".toList) = true :=
  spec_C8.2.2.2 ("[[local:x]]".toList)
    (⟨ExternalFileLinkScheme.Local, "x", none⟩, []) (by decide)

/-! ## Top-level block alternation (C1) -/

theorem altList_first_success {α : Type} :
    ∀ (ps : List (P α)) (input : List Char) (r : α × List Char),
      altList ps input = some r ↔
        ∃ i : Nat, i < ps.length ∧
          (ps.getD i failP) input = some r ∧
          ∀ j : Nat, j < i → (ps.getD j failP) input = none := by
  intro ps
  induction ps with
  | nil =>
    intro input r
    constructor
    · intro h
      simp [altList] at h
    · rintro ⟨i, hi, -⟩
      simp at hi
  | cons p rest ih =>
    intro input r
    constructor
    · intro h
      simp only [altList] at h
      cases hp : p input with
      | some r0 =>
        rw [hp] at h
        refine ⟨0, by simp, ?_, ?_⟩
        · simpa [hp] using h
        · intro j hj
          exact absurd hj (Nat.not_lt_zero j)
      | none =>
        rw [hp] at h
        obtain ⟨i, hi, hsome, hnone⟩ := (ih input r).mp h
        refine ⟨i + 1, by simpa using hi, by simpa using hsome, ?_⟩
        intro j hj
        match j with
        | 0 => simpa using hp
        | j + 1 =>
          simpa using hnone j (by omega)
    · rintro ⟨i, hi, hsome, hnone⟩
      simp only [altList]
      match i with
      | 0 =>
        simp only [List.getD_cons_zero] at hsome
        rw [hsome]
      | i + 1 =>
        have hp : p input = none := by simpa using hnone 0 (by omega)
        rw [hp]
        refine (ih input r).mpr ⟨i, by simpa using hi, by simpa using hsome,
          ?_⟩
        intro j hj
        simpa using hnone (j + 1) (by omega)

theorem altList_eq_none {α : Type} :
    ∀ (ps : List (P α)) (input : List Char),
      altList ps input = none ↔ ∀ p ∈ ps, p input = none := by
  intro ps
  induction ps with
  | nil =>
    intro input
    simp [altList]
  | cons p rest ih =>
    intro input
    simp only [altList]
    cases hp : p input with
    | some r0 => simp [hp]
    | none => simp [hp, ih]

theorem altList_progress {α : Type} (ps : List (P α))
    (h : ∀ p ∈ ps, IsProgressParser p) : IsProgressParser (altList ps) := by
  intro input a rest hsome
  obtain ⟨i, hi, hsome2, -⟩ :=
    (altList_first_success ps input (a, rest)).mp hsome
  rw [List.getD_eq_getElem ps failP hi] at hsome2
  exact h (ps[i]) (List.getElem_mem hi) input a rest hsome2

theorem altList_suffix {α : Type} (ps : List (P α))
    (h : ∀ p ∈ ps, IsSuffixParser p) : IsSuffixParser (altList ps) := by
  intro input a rest hsome
  obtain ⟨i, hi, hsome2, -⟩ :=
    (altList_first_success ps input (a, rest)).mp hsome
  rw [List.getD_eq_getElem ps failP hi] at hsome2
  exact h (ps[i]) (List.getElem_mem hi) input a rest hsome2

/-- C1 counterexample: with an environment whose list parser succeeds
on the line - x while header and paragraph fail, the claimed order
(with List third) yields a List block, but block_component as written
in the source yields the UnrecognizedLine catch-all: the parse loop
does not try a List alternative. -/
theorem spec_C1_counterexample :
    block_component cexEnv ("- x".toList) ≠
      altList (claimedAlternatives cexEnv) ("- x".toList) := by decide

/-- C1 (amended): the top-level parse loop tries the block alternatives
in the fixed order Header, Paragraph, Table, PreformattedText,
MathBlock, Blockquote, Divider, standalone TagSequence, blank line,
and the non-blank catch-all UnrecognizedLine; List is not among the
alternatives.  For every input, the loop returns a block exactly when
some alternative succeeds, and the result is that of the first
alternative in that order that succeeds. -/
theorem spec_C1 (env : BlockParsers) (input : List Char)
    (r : BlockComponent × List Char) :
    block_component env input = some r ↔
      ∃ i : Nat, i < (blockAlternatives env).length ∧
        ((blockAlternatives env).getD i failP) input = some r ∧
        ∀ j : Nat, j < i →
          ((blockAlternatives env).getD j failP) input = none :=
  altList_first_success (blockAlternatives env) input r

/-- Witness for C1: on the line - x the first succeeding alternative is
the catch-all at index 9, so block_component returns UnrecognizedLine. -/
theorem spec_C1_witness :
    block_component cexEnv ("- x".toList) =
      some (BlockComponent.UnrecognizedLine "- x", []) :=
  (spec_C1 cexEnv ("- x".toList)
    (BlockComponent.UnrecognizedLine "- x", [])).mpr
    ⟨9, by decide, by decide, by decide⟩

/-! ## Totality of the grammar (C3) -/

theorem afterFirstLine_suffix (input : List Char) :
    afterFirstLine input <:+ input :=
  (List.drop_suffix _ _).trans (List.dropWhile_suffix _)

theorem afterFirstLine_length_lt (input : List Char) (h : input ≠ []) :
    (afterFirstLine input).length < input.length := by
  unfold afterFirstLine
  cases hdw : input.dropWhile (fun c => c ≠ '\n') with
  | nil =>
    simpa using List.length_pos.mpr h
  | cons d t =>
    have hle : (d :: t).length ≤ input.length :=
      hdw ▸ (List.dropWhile_suffix _).length_le
    simp only [List.length_cons] at hle
    simpa using hle

theorem blank_line_some (input : List Char) (hne : input ≠ [])
    (hws : (input.takeWhile (fun c => c ≠ '\n')).all
      (fun c => c.isWhitespace)) :
    blank_line input = some ((), afterFirstLine input) := by
  unfold blank_line
  rw [if_neg (by simpa using hne), if_pos hws]

theorem blank_line_none (input : List Char)
    (hws : ¬ (input.takeWhile (fun c => c ≠ '\n')).all
      (fun c => c.isWhitespace) = true) :
    blank_line input = none := by
  unfold blank_line
  by_cases he : input.isEmpty
  · rw [if_pos he]
  · rw [if_neg he, if_neg hws]

theorem non_blank_line_some (input : List Char) (hne : input ≠ [])
    (hws : ¬ (input.takeWhile (fun c => c ≠ '\n')).all
      (fun c => c.isWhitespace) = true) :
    non_blank_line input =
      some ((input.takeWhile (fun c => c ≠ '\n')).asString,
        afterFirstLine input) := by
  unfold non_blank_line
  rw [if_neg (by simpa using hne), if_neg hws]

theorem catchall_total (input : List Char) (hne : input ≠ []) :
    ∃ r : BlockComponent,
      altList [blankAlt, nonblankAlt] input =
        some (r, afterFirstLine input) := by
  by_cases hws : (input.takeWhile (fun c => c ≠ '\n')).all
      (fun c => c.isWhitespace) = true
  · refine ⟨BlockComponent.EmptyLine, ?_⟩
    simp only [altList, blankAlt, blank_line_some input hne hws, Option.map]
  · refine ⟨BlockComponent.UnrecognizedLine
      ((input.takeWhile (fun c => c ≠ '\n')).asString), ?_⟩
    simp only [altList, blankAlt, blank_line_none input hws, Option.map,
      nonblankAlt, non_blank_line_some input hne hws]

theorem blankAlt_progress : IsProgressParser blankAlt := by
  intro input a rest h
  unfold blankAlt blank_line at h
  by_cases he : input.isEmpty
  · rw [if_pos he] at h
    simp at h
  · rw [if_neg he] at h
    by_cases hws : (input.takeWhile (fun c => c ≠ '\n')).all
        (fun c => c.isWhitespace) = true
    · rw [if_pos hws] at h
      simp only [Option.map] at h
      obtain ⟨-, hrest⟩ := Prod.mk.injEq .. ▸ (Option.some.injEq .. ▸ h).symm
      rw [hrest]
      exact afterFirstLine_length_lt input (by simpa using he)
    · rw [if_neg hws] at h
      simp at h

theorem nonblankAlt_progress : IsProgressParser nonblankAlt := by
  intro input a rest h
  unfold nonblankAlt non_blank_line at h
  by_cases he : input.isEmpty
  · rw [if_pos he] at h
    simp at h
  · rw [if_neg he] at h
    by_cases hws : (input.takeWhile (fun c => c ≠ '\n')).all
        (fun c => c.isWhitespace) = true
    · rw [if_pos hws] at h
      simp at h
    · rw [if_neg hws] at h
      simp only [Option.map] at h
      obtain ⟨-, hrest⟩ := Prod.mk.injEq .. ▸ (Option.some.injEq .. ▸ h).symm
      rw [hrest]
      exact afterFirstLine_length_lt input (by simpa using he)

theorem blankAlt_suffix : IsSuffixParser blankAlt := by
  intro input a rest h
  unfold blankAlt blank_line at h
  by_cases he : input.isEmpty
  · rw [if_pos he] at h
    simp at h
  · rw [if_neg he] at h
    by_cases hws : (input.takeWhile (fun c => c ≠ '\n')).all
        (fun c => c.isWhitespace) = true
    · rw [if_pos hws] at h
      simp only [Option.map] at h
      obtain ⟨-, hrest⟩ := Prod.mk.injEq .. ▸ (Option.some.injEq .. ▸ h).symm
      rw [hrest]
      exact afterFirstLine_suffix input
    · rw [if_neg hws] at h
      simp at h

theorem nonblankAlt_suffix : IsSuffixParser nonblankAlt := by
  intro input a rest h
  unfold nonblankAlt non_blank_line at h
  by_cases he : input.isEmpty
  · rw [if_pos he] at h
    simp at h
  · rw [if_neg he] at h
    by_cases hws : (input.takeWhile (fun c => c ≠ '\n')).all
        (fun c => c.isWhitespace) = true
    · rw [if_pos hws] at h
      simp at h
    · rw [if_neg hws] at h
      simp only [Option.map] at h
      obtain ⟨-, hrest⟩ := Prod.mk.injEq .. ▸ (Option.some.injEq .. ▸ h).symm
      rw [hrest]
      exact afterFirstLine_suffix input

theorem failP_progress {α : Type} : IsProgressParser (failP : P α) := by
  intro input a rest h
  simp [failP] at h

theorem failP_suffix {α : Type} : IsSuffixParser (failP : P α) := by
  intro input a rest h
  simp [failP] at h

theorem block_component_total (env : BlockParsers) (input : List Char)
    (hne : input ≠ []) : block_component env input ≠ none := by
  intro hnone
  obtain ⟨r, hr⟩ := catchall_total input hne
  have hall := (altList_eq_none (blockAlternatives env) input).mp hnone
  have hb : blankAlt input = none :=
    hall blankAlt (by simp [blockAlternatives])
  have hn : nonblankAlt input = none :=
    hall nonblankAlt (by simp [blockAlternatives])
  simp only [altList, hb, hn] at hr
  exact Option.noConfusion hr

theorem many0_total {α : Type} (p : P α)
    (hprog : IsProgressParser p)
    (htot : ∀ input : List Char, input ≠ [] → p input ≠ none) :
    ∀ (n : Nat) (input : List Char), input.length ≤ n →
      ∃ cs, many0 p input = .ok (cs, []) := by
  intro n
  induction n with
  | zero =>
    intro input hlen
    have hinput : input = [] := List.length_eq_zero.mp (Nat.le_zero.mp hlen)
    subst hinput
    cases hp : p [] with
    | none =>
      refine ⟨[], ?_⟩
      rw [many0.eq_def, hp]
    | some ar =>
      obtain ⟨a, rest⟩ := ar
      exact absurd (hprog [] a rest hp) (by simp)
  | succ n ih =>
    intro input hlen
    cases hp : p input with
    | none =>
      cases input with
      | nil =>
        refine ⟨[], ?_⟩
        rw [many0.eq_def, hp]
      | cons c cs2 =>
        exact absurd hp (htot (c :: cs2) (by simp))
    | some ar =>
      obtain ⟨a, rest⟩ := ar
      have hlt : rest.length < input.length := hprog input a rest hp
      obtain ⟨cs, hcs⟩ := ih rest (by omega)
      refine ⟨a :: cs, ?_⟩
      rw [many0.eq_def, hp]
      dsimp only
      rw [dif_pos hlt, hcs]

/-- C3: the grammar is total.  Provided every block alternative consumes
at least one character whenever it succeeds, the blank-line and
non-blank-line catch-all alternatives together succeed on every
non-empty remaining input, consuming exactly the first line (hence at
least one character); block_component therefore succeeds on every
non-empty input, and the parse loop terminates having consumed the
whole input: parse_str always returns. -/
theorem spec_C3 (env : BlockParsers) (henv : EnvProgress env) :
    (∀ input : List Char, input ≠ [] →
      ∃ r : BlockComponent,
        altList [blankAlt, nonblankAlt] input =
          some (r, afterFirstLine input) ∧
        (afterFirstLine input).length < input.length) ∧
    (∀ input : List Char, input ≠ [] → block_component env input ≠ none) ∧
    (∀ input : List Char, ∃ cs, parse_str env input = .ok cs) := by
  refine ⟨?_, block_component_total env, ?_⟩
  · intro input hne
    obtain ⟨r, hr⟩ := catchall_total input hne
    exact ⟨r, hr, afterFirstLine_length_lt input hne⟩
  · intro input
    have hprog : IsProgressParser (block_component env) :=
      altList_progress (blockAlternatives env) henv
    obtain ⟨cs, hcs⟩ := many0_total (block_component env) hprog
      (block_component_total env) input.length input le_rfl
    refine ⟨cs, ?_⟩
    unfold parse_str
    rw [hcs]
    rfl

/-- Helper: the trivial environment satisfies the progress
hypothesis. -/
theorem envProgress_triv : EnvProgress trivEnv := by
  intro p hp
  simp only [blockAlternatives, trivEnv, List.mem_cons,
    List.not_mem_nil, or_false] at hp
  rcases hp with rfl | rfl | rfl | rfl | rfl | rfl | rfl | rfl | rfl | rfl
  · exact failP_progress
  · exact failP_progress
  · exact failP_progress
  · exact failP_progress
  · exact failP_progress
  · exact failP_progress
  · exact failP_progress
  · exact failP_progress
  · exact blankAlt_progress
  · exact nonblankAlt_progress

/-- Witness for C3: in the trivial environment the whole parse of a
two-line input succeeds. -/
theorem spec_C3_witness :
    ∃ cs, parse_str trivEnv ("a\n \n".toList) = .ok cs :=
  (spec_C3 trivEnv envProgress_triv).2.2 ("a\n \n".toList)

/-! ## Whole-input consumption and error position (C2) -/

theorem many0_ok_spec {α : Type} (p : P α) (hp : IsSuffixParser p) :
    ∀ (n : Nat) (input : List Char), input.length ≤ n →
      ∀ (cs : List α) (rest : List Char),
        many0 p input = .ok (cs, rest) →
        rest <:+ input ∧ p rest = none ∧
        ∃ chunks : List (List Char), chunks.flatten ++ rest = input ∧
          chunks.length = cs.length ∧ ∀ c ∈ chunks, c ≠ [] := by
  intro n
  induction n with
  | zero =>
    intro input hlen cs rest h
    have hinput : input = [] := List.length_eq_zero.mp (Nat.le_zero.mp hlen)
    subst hinput
    cases hpi : p [] with
    | none =>
      rw [many0.eq_def, hpi] at h
      simp only [Except.ok.injEq, Prod.mk.injEq] at h
      obtain ⟨hcs, hrest⟩ := h
      subst hcs
      subst hrest
      exact ⟨List.suffix_refl _, hpi, ⟨[], by simp, by simp, by simp⟩⟩
    | some ar =>
      obtain ⟨a, rest0⟩ := ar
      rw [many0.eq_def, hpi] at h
      dsimp only at h
      rw [dif_neg (by simp)] at h
      exact absurd h (by simp)
  | succ n ih =>
    intro input hlen cs rest h
    cases hpi : p input with
    | none =>
      rw [many0.eq_def, hpi] at h
      simp only [Except.ok.injEq, Prod.mk.injEq] at h
      obtain ⟨hcs, hrest⟩ := h
      subst hcs
      subst hrest
      exact ⟨List.suffix_refl _, hpi, ⟨[], by simp, by simp, by simp⟩⟩
    | some ar =>
      obtain ⟨a, rest0⟩ := ar
      rw [many0.eq_def, hpi] at h
      dsimp only at h
      by_cases hlt : rest0.length < input.length
      · rw [dif_pos hlt] at h
        cases hrec : many0 p rest0 with
        | ok pr =>
          obtain ⟨as, rest1⟩ := pr
          rw [hrec] at h
          dsimp only at h
          simp only [Except.ok.injEq, Prod.mk.injEq] at h
          obtain ⟨hcs, hrest⟩ := h
          subst hcs
          subst hrest
          obtain ⟨hsuf1, hpnone, chunks0, hflat0, hlen0, hne0⟩ :=
            ih rest0 (by omega) as rest1 hrec
          obtain ⟨pre, hpre⟩ := hp input a rest0 hpi
          refine ⟨hsuf1.trans ⟨pre, hpre⟩, hpnone,
            pre :: chunks0, ?_, ?_, ?_⟩
          · simp only [List.flatten_cons, List.append_assoc, hflat0]
            exact hpre
          · simp [hlen0]
          · intro c hc
            rcases List.mem_cons.mp hc with rfl | hc2
            · intro hnil
              subst hnil
              simp only [List.nil_append] at hpre
              rw [hpre] at hlt
              exact absurd hlt (by omega)
            · exact hne0 c hc2
        | error e =>
          rw [hrec] at h
          dsimp only at h
          exact absurd h (by simp)
      · rw [dif_neg hlt] at h
        exact absurd h (by simp)

theorem many0_error_spec {α : Type} (p : P α) (hp : IsSuffixParser p) :
    ∀ (n : Nat) (input : List Char), input.length ≤ n →
      ∀ rest : List Char,
        many0 p input = .error rest →
        rest <:+ input ∧
        (∃ a r2, p rest = some (a, r2) ∧ ¬ r2.length < rest.length) ∧
        ∃ chunks : List (List Char), chunks.flatten ++ rest = input ∧
          ∀ c ∈ chunks, c ≠ [] := by
  intro n
  induction n with
  | zero =>
    intro input hlen rest h
    have hinput : input = [] := List.length_eq_zero.mp (Nat.le_zero.mp hlen)
    subst hinput
    cases hpi : p [] with
    | none =>
      rw [many0.eq_def, hpi] at h
      exact absurd h (by simp)
    | some ar =>
      obtain ⟨a, rest0⟩ := ar
      rw [many0.eq_def, hpi] at h
      dsimp only at h
      rw [dif_neg (by simp)] at h
      simp only [Except.error.injEq] at h
      subst h
      exact ⟨List.suffix_refl _, ⟨a, rest0, hpi, by simp⟩,
        ⟨[], by simp, by simp⟩⟩
  | succ n ih =>
    intro input hlen rest h
    cases hpi : p input with
    | none =>
      rw [many0.eq_def, hpi] at h
      exact absurd h (by simp)
    | some ar =>
      obtain ⟨a, rest0⟩ := ar
      rw [many0.eq_def, hpi] at h
      dsimp only at h
      by_cases hlt : rest0.length < input.length
      · rw [dif_pos hlt] at h
        cases hrec : many0 p rest0 with
        | ok pr =>
          obtain ⟨as, rest1⟩ := pr
          rw [hrec] at h
          dsimp only at h
          exact absurd h (by simp)
        | error e =>
          rw [hrec] at h
          dsimp only at h
          simp only [Except.error.injEq] at h
          subst h
          obtain ⟨hsuf1, hstall, chunks0, hflat0, hne0⟩ :=
            ih rest0 (by omega) e hrec
          obtain ⟨pre, hpre⟩ := hp input a rest0 hpi
          refine ⟨hsuf1.trans ⟨pre, hpre⟩, hstall,
            pre :: chunks0, ?_, ?_⟩
          · simp only [List.flatten_cons, List.append_assoc, hflat0]
            exact hpre
          · intro c hc
            rcases List.mem_cons.mp hc with rfl | hc2
            · intro hnil
              subst hnil
              simp only [List.nil_append] at hpre
              rw [hpre] at hlt
              exact absurd hlt (by omega)
            · exact hne0 c hc2
      · rw [dif_neg hlt] at h
        simp only [Except.error.injEq] at h
        subst h
        exact ⟨List.suffix_refl _, ⟨a, rest0, hpi, hlt⟩,
          ⟨[], by simp, by simp⟩⟩

theorem suffix_take_drop (input rest : List Char)
    (hsuf : rest <:+ input) :
    input.drop (input.length - rest.length) = rest ∧
    (input.length - rest.length) ≤ input.length := by
  obtain ⟨pre, hpre⟩ := hsuf
  constructor
  · have hlen : pre.length = input.length - rest.length := by
      have := congrArg List.length hpre
      simp only [List.length_append] at this
      omega
    rw [← hlen, ← hpre, List.drop_left]
  · omega

/-- C2: parse_str either returns the parsed blocks having consumed the
entire input (the blocks partition it into non-empty consecutive
chunks), or returns a ParseError whose position is the offset of the
first unconsumed character, where everything before that offset was
consumed as blocks and the loop stopped (block_component failed or
stalled there), and whose context stack is the diagnostic stack for the
residual input; trailing input is never silently dropped. -/
theorem spec_C2 (env : BlockParsers) (henv : EnvSuffix env)
    (input : List Char) :
    (∀ cs, parse_str env input = .ok cs →
      ∃ chunks : List (List Char), chunks.flatten = input ∧
        chunks.length = cs.length ∧ ∀ c ∈ chunks, c ≠ []) ∧
    (∀ e, parse_str env input = .error e →
      e.pos ≤ input.length ∧
      e.contexts = env.contextsAt (input.drop e.pos) ∧
      (∃ chunks : List (List Char),
        chunks.flatten = input.take e.pos ∧ ∀ c ∈ chunks, c ≠ []) ∧
      (block_component env (input.drop e.pos) = none ∨
        ∃ a rest2, block_component env (input.drop e.pos) =
          some (a, rest2) ∧
          ¬ rest2.length < (input.drop e.pos).length)) := by
  have hsufp : IsSuffixParser (block_component env) :=
    altList_suffix (blockAlternatives env) henv
  constructor
  · intro cs hok
    unfold parse_str at hok
    cases hm : many0 (block_component env) input with
    | ok pr =>
      obtain ⟨cs0, rest0⟩ := pr
      rw [hm] at hok
      dsimp only at hok
      by_cases hre : rest0.isEmpty
      · rw [if_pos hre] at hok
        simp only [Except.ok.injEq] at hok
        subst hok
        obtain ⟨-, -, chunks, hflat, hlen, hne⟩ :=
          many0_ok_spec (block_component env) hsufp input.length input
            le_rfl cs0 rest0 hm
        have hrest0 : rest0 = [] := by
          cases rest0 with
          | nil => rfl
          | cons c t => simp at hre
        refine ⟨chunks, ?_, hlen, hne⟩
        rw [hrest0, List.append_nil] at hflat
        exact hflat
      · rw [if_neg hre] at hok
        exact absurd hok (by simp)
    | error rest1 =>
      rw [hm] at hok
      exact absurd hok (by simp)
  · intro e herr
    unfold parse_str at herr
    cases hm : many0 (block_component env) input with
    | ok pr =>
      obtain ⟨cs0, rest0⟩ := pr
      rw [hm] at herr
      dsimp only at herr
      by_cases hre : rest0.isEmpty
      · rw [if_pos hre] at herr
        exact absurd herr (by simp)
      · rw [if_neg hre] at herr
        simp only [Except.error.injEq] at herr
        subst herr
        obtain ⟨hsuf, hpnone, chunks, hflat, hlen, hne⟩ :=
          many0_ok_spec (block_component env) hsufp input.length input
            le_rfl cs0 rest0 hm
        obtain ⟨hdrop, hposle⟩ := suffix_take_drop input rest0 hsuf
        refine ⟨hposle, by rw [hdrop], ⟨chunks, ?_, hne⟩, ?_⟩
        · have hlenf : chunks.flatten.length =
              input.length - rest0.length := by
            have := congrArg List.length hflat
            simp only [List.length_append] at this
            omega
          rw [← hlenf, ← hflat, List.take_left]
        · rw [hdrop]
          exact Or.inl hpnone
    | error rest1 =>
      rw [hm] at herr
      simp only [Except.error.injEq] at herr
      subst herr
      obtain ⟨hsuf, ⟨a, r2, hstall, hnlt⟩, chunks, hflat, hne⟩ :=
        many0_error_spec (block_component env) hsufp input.length input
          le_rfl rest1 hm
      obtain ⟨hdrop, hposle⟩ := suffix_take_drop input rest1 hsuf
      refine ⟨hposle, by rw [hdrop], ⟨chunks, ?_, hne⟩, ?_⟩
      · have hlenf : chunks.flatten.length =
            input.length - rest1.length := by
          have := congrArg List.length hflat
          simp only [List.length_append] at this
          omega
        rw [← hlenf, ← hflat, List.take_left]
      · rw [hdrop]
        exact Or.inr ⟨a, r2, hstall, hnlt⟩

/-- Helper: the trivial environment satisfies the suffix hypothesis. -/
theorem envSuffix_triv : EnvSuffix trivEnv := by
  intro p hp
  simp only [blockAlternatives, trivEnv, List.mem_cons,
    List.not_mem_nil, or_false] at hp
  rcases hp with rfl | rfl | rfl | rfl | rfl | rfl | rfl | rfl | rfl | rfl
  · exact failP_suffix
  · exact failP_suffix
  · exact failP_suffix
  · exact failP_suffix
  · exact failP_suffix
  · exact failP_suffix
  · exact failP_suffix
  · exact failP_suffix
  · exact blankAlt_suffix
  · exact nonblankAlt_suffix

/-- Witness for C2: the successful parse of a two-line input in the
trivial environment partitions it into two non-empty chunks. -/
theorem spec_C2_witness :
    ∃ chunks : List (List Char),
      chunks.flatten = "ab\n \n".toList ∧
      chunks.length = [BlockComponent.UnrecognizedLine "ab",
        BlockComponent.EmptyLine].length ∧
      ∀ c ∈ chunks, c ≠ [] :=
  (spec_C2 trivEnv envSuffix_triv ("ab\n \n".toList)).1
    [BlockComponent.UnrecognizedLine "ab", BlockComponent.EmptyLine]
    (by simp +decide [parse_str, many0, block_component, blockAlternatives,
      trivEnv, altList, failP, blankAlt, nonblankAlt, blank_line,
      non_blank_line, afterFirstLine])

/-! ## Element tree construction invariants (C4, C5, C9) -/

theorem keysOf_append (a b : List (Nat × ElementNode)) :
    keysOf (a ++ b) = keysOf a ++ keysOf b := by
  simp [keysOf]

theorem keysOf_cons (p : Nat × ElementNode) (l : List (Nat × ElementNode)) :
    keysOf (p :: l) = p.1 :: keysOf l := by
  simp [keysOf]

theorem mem_of_mem_getLast {α : Type} {l : List α} {x : α}
    (h : x ∈ l.getLast?) : x ∈ l := by
  obtain ⟨hne, hx⟩ := List.mem_getLast?_eq_getLast h
  exact hx ▸ List.getLast_mem hne

theorem mem_of_mem_head {α : Type} {l : List α} {x : α}
    (h : x ∈ l.head?) : x ∈ l := by
  rw [List.eq_cons_of_mem_head? h]
  exact List.mem_cons_self _ _

theorem SegWF_empty (lo R : Nat) : SegWF [] lo lo R := by
  refine ⟨?_, by simp [keysOf], ?_⟩
  · intro k
    simp only [keysOf, List.map_nil, List.not_mem_nil, false_iff]
    omega
  · intro pr hpr
    simp at hpr

theorem SegWF_append (A B : List (Nat × ElementNode)) (lo mid hi R : Nat)
    (hA : SegWF A lo mid R) (hB : SegWF B mid hi R)
    (hlm : lo ≤ mid) (hmh : mid ≤ hi) : SegWF (B ++ A) lo hi R := by
  obtain ⟨hAk, hAnd, hAn⟩ := hA
  obtain ⟨hBk, hBnd, hBn⟩ := hB
  refine ⟨?_, ?_, ?_⟩
  · intro k
    rw [keysOf_append]
    simp only [List.mem_append, hAk k, hBk k]
    omega
  · rw [keysOf_append]
    refine hBnd.append hAnd ?_
    intro k hkB hkA
    have h1 := (hBk k).mp hkB
    have h2 := (hAk k).mp hkA
    omega
  · intro pr hpr
    rcases List.mem_append.mp hpr with hB2 | hA2
    · obtain ⟨h1, h2, h3, h4⟩ := hBn pr hB2
      refine ⟨h1, h2, ?_, h4⟩
      intro ch hch
      obtain ⟨c1, c2, c3⟩ := h3 ch hch
      exact ⟨c1, c2, by
        rw [keysOf_append]; exact List.mem_append.mpr (Or.inl c3)⟩
    · obtain ⟨h1, h2, h3, h4⟩ := hAn pr hA2
      refine ⟨h1, h2, ?_, h4⟩
      intro ch hch
      obtain ⟨c1, c2, c3⟩ := h3 ch hch
      exact ⟨c1, by omega, by
        rw [keysOf_append]; exact List.mem_append.mpr (Or.inr c3)⟩

theorem IdsWF_nil (news : List (Nat × ElementNode)) (lo hi : Nat) :
    IdsWF [] news lo hi :=
  ⟨by simp, by simp⟩

theorem IdsWF_append (ids1 ids2 : List Nat)
    (A B : List (Nat × ElementNode)) (lo mid hi : Nat)
    (h1 : IdsWF ids1 A lo mid) (h2 : IdsWF ids2 B mid hi)
    (hlm : lo ≤ mid) (hmh : mid ≤ hi) :
    IdsWF (ids1 ++ ids2) (B ++ A) lo hi := by
  obtain ⟨hb1, hc1⟩ := h1
  obtain ⟨hb2, hc2⟩ := h2
  refine ⟨?_, ?_⟩
  · intro i hmem
    rcases List.mem_append.mp hmem with h | h
    · obtain ⟨x1, x2, x3⟩ := hb1 i h
      exact ⟨x1, by omega, by
        rw [keysOf_append]; exact List.mem_append.mpr (Or.inr x3)⟩
    · obtain ⟨x1, x2, x3⟩ := hb2 i h
      exact ⟨by omega, x2, by
        rw [keysOf_append]; exact List.mem_append.mpr (Or.inl x3)⟩
  · rw [List.chain'_append]
    refine ⟨hc1, hc2, ?_⟩
    intro x hx y hy
    have hxm := hb1 x (mem_of_mem_getLast hx)
    have hym := hb2 y (mem_of_mem_head hy)
    omega

theorem StepSpec_nil (R : Nat) (st : St) : StepSpec R st ([], st) := by
  refine ⟨le_rfl, [], by simp, SegWF_empty st.1 R, IdsWF_nil [] st.1 st.1⟩

theorem StepSpec_seq (R : Nat) (st : St) (out1 : List Nat × St)
    (out2 : List Nat × St)
    (h1 : StepSpec R st out1) (h2 : StepSpec R out1.2 out2) :
    StepSpec R st (out1.1 ++ out2.1, out2.2) := by
  obtain ⟨hle1, news1, heq1, hseg1, hids1⟩ := h1
  obtain ⟨hle2, news2, heq2, hseg2, hids2⟩ := h2
  refine ⟨by dsimp only; omega, news2 ++ news1, ?_, ?_, ?_⟩
  · rw [heq2, heq1, List.append_assoc]
  · exact SegWF_append news1 news2 st.1 out1.2.1 out2.2.1 R hseg1 hseg2
      hle1 hle2
  · exact IdsWF_append out1.1 out2.1 news1 news2 st.1 out1.2.1 out2.2.1
      hids1 hids2 hle1 hle2

theorem node_insert_full (R : Nat) (st : St) (out1 : List Nat × St)
    (node : ElementNode)
    (h1 : StepSpec R (st.1 + 1, st.2) out1)
    (hn : node.element_id = st.1) (hr : node.root_id = R)
    (hc : node.children_ids = out1.1) :
    st.1 < out1.2.1 ∧
    ∃ newsC, out1.2.2 = newsC ++ st.2 ∧
      SegWF ((st.1, node) :: newsC) st.1 out1.2.1 R ∧
      IdsWF [st.1] ((st.1, node) :: newsC) st.1 out1.2.1 := by
  obtain ⟨hle1, newsC, heqC, hsegC, hidsC⟩ := h1
  obtain ⟨hkC, hndC, hnC⟩ := hsegC
  obtain ⟨hbC, hchC⟩ := hidsC
  simp only at hle1 heqC
  refine ⟨by omega, newsC, heqC, ?_, ?_⟩
  · refine ⟨?_, ?_, ?_⟩
    · intro k
      rw [keysOf_cons]
      simp only [List.mem_cons, hkC k]
      omega
    · rw [keysOf_cons]
      refine List.Nodup.cons ?_ hndC
      intro hmem
      have := (hkC st.1).mp hmem
      omega
    · intro pr hpr
      rcases List.mem_cons.mp hpr with rfl | hpr2
      · refine ⟨hn, hr, ?_, ?_⟩
        · intro ch hch
          rw [hc] at hch
          obtain ⟨x1, x2, x3⟩ := hbC ch hch
          exact ⟨by simpa [hn] using by omega, x2, by
            rw [keysOf_cons]; exact List.mem_cons_of_mem _ x3⟩
        · rw [hc]
          exact hchC
      · obtain ⟨h1, h2, h3, h4⟩ := hnC pr hpr2
        refine ⟨h1, h2, ?_, h4⟩
        intro ch hch
        obtain ⟨c1, c2, c3⟩ := h3 ch hch
        exact ⟨c1, c2, by
          rw [keysOf_cons]; exact List.mem_cons_of_mem _ c3⟩
  · refine ⟨?_, ?_⟩
    · intro i hmem
      rw [List.mem_singleton] at hmem
      subst hmem
      refine ⟨le_rfl, by omega, ?_⟩
      rw [keysOf_cons]
      exact List.mem_cons_self _ _
    · exact List.chain'_singleton _

theorem node_insert_spec (R : Nat) (st : St) (out1 : List Nat × St)
    (node : ElementNode)
    (h1 : StepSpec R (st.1 + 1, st.2) out1)
    (hn : node.element_id = st.1) (hr : node.root_id = R)
    (hc : node.children_ids = out1.1) :
    StepSpec R st ([st.1], (out1.2.1, (st.1, node) :: out1.2.2)) := by
  obtain ⟨hlt, newsC, heqC, hseg, hids⟩ :=
    node_insert_full R st out1 node h1 hn hr hc
  exact ⟨by dsimp only; omega, (st.1, node) :: newsC,
    by dsimp only; rw [heqC, List.cons_append], hseg, hids⟩

theorem add_inlines_spec (rootId : Nat) :
    ∀ (parentId : Option Nat) (cs : List (Region × InlineElement))
      (st : St),
      StepSpec rootId st (add_inlines rootId parentId cs st) := by
  intro parentId cs st
  induction parentId, cs, st using add_inlines.induct rootId with
  | case1 parentId st =>
    rw [add_inlines.eq_def]
    exact StepSpec_nil rootId st
  | case2 parentId st r e rest element_id ids st4 heq1 node ids2 st5
      heq2 ihe ihrest =>
    have hchild : StepSpec rootId (st.1 + 1, st.2) (ids, st4) := by
      cases e with
      | DecoratedText contents =>
        have heq1a : add_inlines rootId (some element_id) contents
            (st.1 + 1, st.2) = (ids, st4) := heq1
        have ihea : StepSpec rootId (st.1 + 1, st.2)
            (add_inlines rootId (some element_id) contents
              (st.1 + 1, st.2)) := ihe
        rw [heq1a] at ihea
        exact ihea
      | Text s =>
        have heq1a : (([] : List Nat), (st.1 + 1, st.2)) = (ids, st4) :=
          heq1
        injection heq1a with h1 h2
        subst h1
        subst h2
        exact StepSpec_nil rootId (st.1 + 1, st.2)
      | Keyword s =>
        have heq1a : (([] : List Nat), (st.1 + 1, st.2)) = (ids, st4) :=
          heq1
        injection heq1a with h1 h2
        subst h1
        subst h2
        exact StepSpec_nil rootId (st.1 + 1, st.2)
      | Link =>
        have heq1a : (([] : List Nat), (st.1 + 1, st.2)) = (ids, st4) :=
          heq1
        injection heq1a with h1 h2
        subst h1
        subst h2
        exact StepSpec_nil rootId (st.1 + 1, st.2)
      | Tags =>
        have heq1a : (([] : List Nat), (st.1 + 1, st.2)) = (ids, st4) :=
          heq1
        injection heq1a with h1 h2
        subst h1
        subst h2
        exact StepSpec_nil rootId (st.1 + 1, st.2)
      | Math s =>
        have heq1a : (([] : List Nat), (st.1 + 1, st.2)) = (ids, st4) :=
          heq1
        injection heq1a with h1 h2
        subst h1
        subst h2
        exact StepSpec_nil rootId (st.1 + 1, st.2)
    have hnode := node_insert_spec rootId st (ids, st4)
      ⟨rootId, parentId, st.1, ElementRef.Inline e, r, ids⟩
      hchild rfl rfl rfl
    have heq2a : add_inlines rootId parentId rest
        (st4.1, (st.1, (⟨rootId, parentId, st.1, ElementRef.Inline e, r,
          ids⟩ : ElementNode)) :: st4.2) = (ids2, st5) := heq2
    have ihresta : StepSpec rootId
        (st4.1, (st.1, (⟨rootId, parentId, st.1, ElementRef.Inline e, r,
          ids⟩ : ElementNode)) :: st4.2) (ids2, st5) := by
      have h0 : StepSpec rootId
          (st4.1, (st.1, (⟨rootId, parentId, st.1, ElementRef.Inline e, r,
            ids⟩ : ElementNode)) :: st4.2)
          (add_inlines rootId parentId rest
            (st4.1, (st.1, (⟨rootId, parentId, st.1, ElementRef.Inline e,
              r, ids⟩ : ElementNode)) :: st4.2)) := ihrest
      rw [heq2a] at h0
      exact h0
    have hcomb := StepSpec_seq rootId st
      ([st.1], (st4.1, (st.1,
        (⟨rootId, parentId, st.1, ElementRef.Inline e, r,
          ids⟩ : ElementNode)) :: st4.2))
      (ids2, st5) hnode ihresta
    show StepSpec rootId st (add_inlines rootId parentId ((r, e) :: rest) st)
    rw [add_inlines.eq_def]
    dsimp only
    rw [heq1]
    dsimp only
    rw [heq2a]
    exact hcomb

theorem add_cells_spec (rootId parentId : Nat) :
    ∀ (cells : List (Region × Cell)) (st : St),
      StepSpec rootId st (add_cells rootId parentId cells st) := by
  intro cells
  induction cells with
  | nil =>
    intro st
    exact StepSpec_nil rootId st
  | cons hd rest ih =>
    intro st
    obtain ⟨rg, c⟩ := hd
    cases c with
    | Content els =>
      exact StepSpec_seq rootId st
        (add_inlines rootId (some parentId) els st)
        (add_cells rootId parentId rest
          (add_inlines rootId (some parentId) els st).2)
        (add_inlines_spec rootId (some parentId) els st)
        (ih (add_inlines rootId (some parentId) els st).2)
    | Span =>
      exact StepSpec_seq rootId st ([], st)
        (add_cells rootId parentId rest st)
        (StepSpec_nil rootId st) (ih st)
    | Empty =>
      exact StepSpec_seq rootId st ([], st)
        (add_cells rootId parentId rest st)
        (StepSpec_nil rootId st) (ih st)

theorem add_table_rows_spec (rootId parentId : Nat) :
    ∀ (rows : List (Region × Row)) (st : St),
      StepSpec rootId st (add_table_rows rootId parentId rows st) := by
  intro rows
  induction rows with
  | nil =>
    intro st
    exact StepSpec_nil rootId st
  | cons hd rest ih =>
    intro st
    obtain ⟨rg, row⟩ := hd
    cases row with
    | Content cells =>
      exact StepSpec_seq rootId st
        (add_cells rootId parentId cells st)
        (add_table_rows rootId parentId rest
          (add_cells rootId parentId cells st).2)
        (add_cells_spec rootId parentId cells st)
        (ih (add_cells rootId parentId cells st).2)
    | Divider =>
      exact StepSpec_seq rootId st ([], st)
        (add_table_rows rootId parentId rest st)
        (StepSpec_nil rootId st) (ih st)

theorem add_containers_spec (rootId parentId : Nat) :
    ∀ (ds : List (List (Region × InlineElement))) (st : St),
      StepSpec rootId st (add_containers rootId parentId ds st) := by
  intro ds
  induction ds with
  | nil =>
    intro st
    exact StepSpec_nil rootId st
  | cons d rest ih =>
    intro st
    exact StepSpec_seq rootId st
      (add_inlines rootId (some parentId) d st)
      (add_containers rootId parentId rest
        (add_inlines rootId (some parentId) d st).2)
      (add_inlines_spec rootId (some parentId) d st)
      (ih (add_inlines rootId (some parentId) d st).2)

theorem add_termdefs_spec (rootId parentId : Nat) :
    ∀ (tds : List ((List (Region × InlineElement)) ×
        List (List (Region × InlineElement)))) (st : St),
      StepSpec rootId st (add_termdefs rootId parentId tds st) := by
  intro tds
  induction tds with
  | nil =>
    intro st
    exact StepSpec_nil rootId st
  | cons hd rest ih =>
    intro st
    obtain ⟨term, defs⟩ := hd
    have h1 := StepSpec_seq rootId st
      (add_inlines rootId (some parentId) term st)
      (add_containers rootId parentId defs
        (add_inlines rootId (some parentId) term st).2)
      (add_inlines_spec rootId (some parentId) term st)
      (add_containers_spec rootId parentId defs
        (add_inlines rootId (some parentId) term st).2)
    have h2 := StepSpec_seq rootId st
      ((add_inlines rootId (some parentId) term st).1 ++
        (add_containers rootId parentId defs
          (add_inlines rootId (some parentId) term st).2).1,
        (add_containers rootId parentId defs
          (add_inlines rootId (some parentId) term st).2).2)
      (add_termdefs rootId parentId rest
        (add_containers rootId parentId defs
          (add_inlines rootId (some parentId) term st).2).2)
      h1
      (ih (add_containers rootId parentId defs
        (add_inlines rootId (some parentId) term st).2).2)
    exact h2

theorem add_item_contents_spec :
    ∀ (rootId parentId : Nat) (cs : List (Region × ItemContent)) (st : St),
      rootId ≠ EMPTY_NODE →
      StepSpec rootId st (add_item_contents rootId parentId cs st) := by
  refine add_item_contents.induct
    (fun rootId parentId cs st => rootId ≠ EMPTY_NODE →
      StepSpec rootId st (add_item_contents rootId parentId cs st))
    (fun rootId parentId items st => rootId ≠ EMPTY_NODE →
      StepSpec rootId st (add_list_items rootId parentId items st))
    ?_ ?_ ?_ ?_
  · intro rootId parentId st _hroot
    rw [add_item_contents.eq_1]
    exact StepSpec_nil rootId st
  · intro rootId parentId st r c rest ids st4 heq1 ids2 st5 heq2 ihc
      ihrest hroot
    cases c with
    | InlineContent els =>
      have heq1a : add_inlines rootId (some parentId) els st = (ids, st4) :=
        heq1
      have h1 : StepSpec rootId st (ids, st4) := by
        have h0 := add_inlines_spec rootId (some parentId) els st
        rw [heq1a] at h0
        exact h0
      have hrest : StepSpec rootId st4 (ids2, st5) := by
        have h0 := ihrest hroot
        rw [heq2] at h0
        exact h0
      have hcomb := StepSpec_seq rootId st (ids, st4) (ids2, st5) h1 hrest
      rw [add_item_contents.eq_2]
      rw [heq1a]
      dsimp only
      rw [heq2]
      exact hcomb
    | Sublist items =>
      have hR : resolveRoot rootId st.1 = rootId := by
        simp [resolveRoot, hroot]
      have ihc2 : StepSpec rootId (st.1 + 1, st.2)
          (add_list_items rootId st.1 items (st.1 + 1, st.2)) := by
        have h0 : resolveRoot rootId st.1 ≠ EMPTY_NODE →
            StepSpec (resolveRoot rootId st.1) (st.1 + 1, st.2)
              (add_list_items (resolveRoot rootId st.1) st.1 items
                (st.1 + 1, st.2)) := ihc
        rw [hR] at h0
        exact h0 hroot
      have hnode := node_insert_spec rootId st
        (add_list_items rootId st.1 items (st.1 + 1, st.2))
        ⟨rootId, some parentId, st.1,
          ElementRef.Block (BlockElement.List items), r,
          (add_list_items rootId st.1 items (st.1 + 1, st.2)).1⟩
        ihc2 rfl rfl rfl
      have heq1a : (([st.1] : List Nat),
          ((add_list_items (resolveRoot rootId st.1) st.1 items
            (st.1 + 1, st.2)).2.1,
           (st.1, (⟨resolveRoot rootId st.1, some parentId, st.1,
             ElementRef.Block (BlockElement.List items), r,
             (add_list_items (resolveRoot rootId st.1) st.1 items
               (st.1 + 1, st.2)).1⟩ : ElementNode)) ::
           (add_list_items (resolveRoot rootId st.1) st.1 items
             (st.1 + 1, st.2)).2.2)) = (ids, st4) := heq1
      have hids : ([st.1] : List Nat) = ids := congrArg Prod.fst heq1a
      have hSr := congrArg Prod.snd heq1a
      dsimp only at hSr
      rw [hR] at hSr
      have h1 : StepSpec rootId st (ids, st4) := by
        rw [← hids, ← hSr]
        exact hnode
      have hrest : StepSpec rootId st4 (ids2, st5) := by
        have h0 := ihrest hroot
        rw [heq2] at h0
        exact h0
      have hcomb := StepSpec_seq rootId st (ids, st4) (ids2, st5) h1 hrest
      rw [add_item_contents.eq_3]
      show StepSpec rootId st
        (([st.1] : List Nat) ++
          (add_item_contents rootId parentId rest
            ((add_list_items (resolveRoot rootId st.1) st.1 items
              (st.1 + 1, st.2)).2.1,
             (st.1, (⟨resolveRoot rootId st.1, some parentId, st.1,
               ElementRef.Block (BlockElement.List items), r,
               (add_list_items (resolveRoot rootId st.1) st.1 items
                 (st.1 + 1, st.2)).1⟩ : ElementNode)) ::
             (add_list_items (resolveRoot rootId st.1) st.1 items
               (st.1 + 1, st.2)).2.2)).1,
         (add_item_contents rootId parentId rest
            ((add_list_items (resolveRoot rootId st.1) st.1 items
              (st.1 + 1, st.2)).2.1,
             (st.1, (⟨resolveRoot rootId st.1, some parentId, st.1,
               ElementRef.Block (BlockElement.List items), r,
               (add_list_items (resolveRoot rootId st.1) st.1 items
                 (st.1 + 1, st.2)).1⟩ : ElementNode)) ::
             (add_list_items (resolveRoot rootId st.1) st.1 items
               (st.1 + 1, st.2)).2.2)).2)
      rw [hR, hSr, heq2, hids]
      exact hcomb
  · intro rootId parentId st _hroot
    rw [add_list_items.eq_1]
    exact StepSpec_nil rootId st
  · intro rootId parentId st fst contents rest ids st4 heq1 ids2 st5 heq2
      ihc ihrest hroot
    have h1 : StepSpec rootId st (ids, st4) := by
      have h0 := ihc hroot
      rw [heq1] at h0
      exact h0
    have hrest : StepSpec rootId st4 (ids2, st5) := by
      have h0 := ihrest hroot
      rw [heq2] at h0
      exact h0
    have hcomb := StepSpec_seq rootId st (ids, st4) (ids2, st5) h1 hrest
    rw [add_list_items.eq_2]
    rw [heq1]
    dsimp only
    rw [heq2]
    exact hcomb

theorem add_list_items_spec :
    ∀ (rootId parentId : Nat)
      (items : List (Region × List (Region × ItemContent))) (st : St),
      rootId ≠ EMPTY_NODE →
      StepSpec rootId st (add_list_items rootId parentId items st) := by
  refine add_list_items.induct
    (fun rootId parentId cs st => rootId ≠ EMPTY_NODE →
      StepSpec rootId st (add_item_contents rootId parentId cs st))
    (fun rootId parentId items st => rootId ≠ EMPTY_NODE →
      StepSpec rootId st (add_list_items rootId parentId items st))
    ?_ ?_ ?_ ?_
  · intro rootId parentId st _hroot
    rw [add_item_contents.eq_1]
    exact StepSpec_nil rootId st
  · intro rootId parentId st r c rest ids st4 heq1 ids2 st5 heq2 ihc
      ihrest hroot
    cases c with
    | InlineContent els =>
      have heq1a : add_inlines rootId (some parentId) els st = (ids, st4) :=
        heq1
      have h1 : StepSpec rootId st (ids, st4) := by
        have h0 := add_inlines_spec rootId (some parentId) els st
        rw [heq1a] at h0
        exact h0
      have hrest : StepSpec rootId st4 (ids2, st5) := by
        have h0 := ihrest hroot
        rw [heq2] at h0
        exact h0
      have hcomb := StepSpec_seq rootId st (ids, st4) (ids2, st5) h1 hrest
      rw [add_item_contents.eq_2]
      rw [heq1a]
      dsimp only
      rw [heq2]
      exact hcomb
    | Sublist items =>
      have hR : resolveRoot rootId st.1 = rootId := by
        simp [resolveRoot, hroot]
      have ihc2 : StepSpec rootId (st.1 + 1, st.2)
          (add_list_items rootId st.1 items (st.1 + 1, st.2)) := by
        have h0 : resolveRoot rootId st.1 ≠ EMPTY_NODE →
            StepSpec (resolveRoot rootId st.1) (st.1 + 1, st.2)
              (add_list_items (resolveRoot rootId st.1) st.1 items
                (st.1 + 1, st.2)) := ihc
        rw [hR] at h0
        exact h0 hroot
      have hnode := node_insert_spec rootId st
        (add_list_items rootId st.1 items (st.1 + 1, st.2))
        ⟨rootId, some parentId, st.1,
          ElementRef.Block (BlockElement.List items), r,
          (add_list_items rootId st.1 items (st.1 + 1, st.2)).1⟩
        ihc2 rfl rfl rfl
      have heq1a : (([st.1] : List Nat),
          ((add_list_items (resolveRoot rootId st.1) st.1 items
            (st.1 + 1, st.2)).2.1,
           (st.1, (⟨resolveRoot rootId st.1, some parentId, st.1,
             ElementRef.Block (BlockElement.List items), r,
             (add_list_items (resolveRoot rootId st.1) st.1 items
               (st.1 + 1, st.2)).1⟩ : ElementNode)) ::
           (add_list_items (resolveRoot rootId st.1) st.1 items
             (st.1 + 1, st.2)).2.2)) = (ids, st4) := heq1
      have hids : ([st.1] : List Nat) = ids := congrArg Prod.fst heq1a
      have hSr := congrArg Prod.snd heq1a
      dsimp only at hSr
      rw [hR] at hSr
      have h1 : StepSpec rootId st (ids, st4) := by
        rw [← hids, ← hSr]
        exact hnode
      have hrest : StepSpec rootId st4 (ids2, st5) := by
        have h0 := ihrest hroot
        rw [heq2] at h0
        exact h0
      have hcomb := StepSpec_seq rootId st (ids, st4) (ids2, st5) h1 hrest
      rw [add_item_contents.eq_3]
      show StepSpec rootId st
        (([st.1] : List Nat) ++
          (add_item_contents rootId parentId rest
            ((add_list_items (resolveRoot rootId st.1) st.1 items
              (st.1 + 1, st.2)).2.1,
             (st.1, (⟨resolveRoot rootId st.1, some parentId, st.1,
               ElementRef.Block (BlockElement.List items), r,
               (add_list_items (resolveRoot rootId st.1) st.1 items
                 (st.1 + 1, st.2)).1⟩ : ElementNode)) ::
             (add_list_items (resolveRoot rootId st.1) st.1 items
               (st.1 + 1, st.2)).2.2)).1,
         (add_item_contents rootId parentId rest
            ((add_list_items (resolveRoot rootId st.1) st.1 items
              (st.1 + 1, st.2)).2.1,
             (st.1, (⟨resolveRoot rootId st.1, some parentId, st.1,
               ElementRef.Block (BlockElement.List items), r,
               (add_list_items (resolveRoot rootId st.1) st.1 items
                 (st.1 + 1, st.2)).1⟩ : ElementNode)) ::
             (add_list_items (resolveRoot rootId st.1) st.1 items
               (st.1 + 1, st.2)).2.2)).2)
      rw [hR, hSr, heq2, hids]
      exact hcomb
  · intro rootId parentId st _hroot
    rw [add_list_items.eq_1]
    exact StepSpec_nil rootId st
  · intro rootId parentId st fst contents rest ids st4 heq1 ids2 st5 heq2
      ihc ihrest hroot
    have h1 : StepSpec rootId st (ids, st4) := by
      have h0 := ihc hroot
      rw [heq1] at h0
      exact h0
    have hrest : StepSpec rootId st4 (ids2, st5) := by
      have h0 := ihrest hroot
      rw [heq2] at h0
      exact h0
    have hcomb := StepSpec_seq rootId st (ids, st4) (ids2, st5) h1 hrest
    rw [add_list_items.eq_2]
    rw [heq1]
    dsimp only
    rw [heq2]
    exact hcomb

theorem resolveRoot_ne (rootId c : Nat) (hc : c ≠ EMPTY_NODE) :
    resolveRoot rootId c ≠ EMPTY_NODE := by
  unfold resolveRoot
  split
  · next h => exact h
  · exact hc

theorem resolveRoot_zero (c : Nat) : resolveRoot EMPTY_NODE c = c := by
  simp [resolveRoot]

theorem block_finish (rootId : Nat) (parentId : Option Nat)
    (e : BlockElement) (region : Region) (st : St) (CH : List Nat × St)
    (hch : StepSpec (resolveRoot rootId st.1) (st.1 + 1, st.2) CH)
    (hout : add_block_element rootId parentId e region st =
      (st.1, (CH.2.1, (st.1, (⟨resolveRoot rootId st.1, parentId, st.1,
        ElementRef.Block e, region, CH.1⟩ : ElementNode)) :: CH.2.2))) :
    BlockSpec rootId parentId st
      (add_block_element rootId parentId e region st) := by
  rw [hout]
  obtain ⟨hlt, newsC, heqC, hseg, hids⟩ := node_insert_full
    (resolveRoot rootId st.1) st CH
    ⟨resolveRoot rootId st.1, parentId, st.1, ElementRef.Block e, region,
      CH.1⟩ hch rfl rfl rfl
  refine ⟨rfl, by dsimp only; exact hlt,
    (st.1, ⟨resolveRoot rootId st.1, parentId, st.1, ElementRef.Block e,
      region, CH.1⟩) :: newsC, ?_, by dsimp only; exact hseg,
    ⟨resolveRoot rootId st.1, parentId, st.1, ElementRef.Block e,
      region, CH.1⟩, List.mem_cons_self _ _, rfl, rfl, rfl⟩
  dsimp only
  rw [heqC, List.cons_append]

theorem add_block_element_spec (rootId : Nat) (parentId : Option Nat)
    (e : BlockElement) (region : Region) (st : St)
    (hst : st.1 ≠ EMPTY_NODE) :
    BlockSpec rootId parentId st
      (add_block_element rootId parentId e region st) := by
  have hRne := resolveRoot_ne rootId st.1 hst
  cases e with
  | DefinitionList tds =>
    exact block_finish rootId parentId (BlockElement.DefinitionList tds)
      region st
      (add_termdefs (resolveRoot rootId st.1) st.1 tds (st.1 + 1, st.2))
      (add_termdefs_spec (resolveRoot rootId st.1) st.1 tds
        (st.1 + 1, st.2)) rfl
  | Header content =>
    exact block_finish rootId parentId (BlockElement.Header content)
      region st
      (add_inlines (resolveRoot rootId st.1) (some st.1) content
        (st.1 + 1, st.2))
      (add_inlines_spec (resolveRoot rootId st.1) (some st.1) content
        (st.1 + 1, st.2)) rfl
  | List items =>
    exact block_finish rootId parentId (BlockElement.List items) region st
      (add_list_items (resolveRoot rootId st.1) st.1 items
        (st.1 + 1, st.2))
      (add_list_items_spec (resolveRoot rootId st.1) st.1 items
        (st.1 + 1, st.2) hRne) rfl
  | Paragraph content =>
    exact block_finish rootId parentId (BlockElement.Paragraph content)
      region st
      (add_inlines (resolveRoot rootId st.1) (some st.1) content
        (st.1 + 1, st.2))
      (add_inlines_spec (resolveRoot rootId st.1) (some st.1) content
        (st.1 + 1, st.2)) rfl
  | Table rows =>
    exact block_finish rootId parentId (BlockElement.Table rows) region st
      (add_table_rows (resolveRoot rootId st.1) st.1 rows (st.1 + 1, st.2))
      (add_table_rows_spec (resolveRoot rootId st.1) st.1 rows
        (st.1 + 1, st.2)) rfl
  | Divider =>
    exact block_finish rootId parentId BlockElement.Divider region st
      ([], (st.1 + 1, st.2))
      (StepSpec_nil (resolveRoot rootId st.1) (st.1 + 1, st.2)) rfl
  | Blockquote =>
    exact block_finish rootId parentId BlockElement.Blockquote region st
      ([], (st.1 + 1, st.2))
      (StepSpec_nil (resolveRoot rootId st.1) (st.1 + 1, st.2)) rfl
  | Other =>
    exact block_finish rootId parentId BlockElement.Other region st
      ([], (st.1 + 1, st.2))
      (StepSpec_nil (resolveRoot rootId st.1) (st.1 + 1, st.2)) rfl

theorem add_page_elements_spec :
    ∀ (es : List (Region × BlockElement)) (st : St),
      st.1 ≠ EMPTY_NODE →
      st.1 ≤ (add_page_elements es st).2.1 ∧
      ∃ news, (add_page_elements es st).2.2 = news ++ st.2 ∧
        (∀ k, k ∈ keysOf news ↔
          st.1 ≤ k ∧ k < (add_page_elements es st).2.1) ∧
        (keysOf news).Nodup ∧
        (∀ pr ∈ news, pr.2.element_id = pr.1 ∧
          pr.2.root_id ∈ keysOf news ∧
          (∀ ch ∈ pr.2.children_ids, pr.1 < ch ∧ ch ∈ keysOf news) ∧
          pr.2.children_ids.Chain' (· < ·)) ∧
        (∀ id ∈ (add_page_elements es st).1,
          ∃ nd, (id, nd) ∈ news ∧ nd.parent_id = none ∧
            nd.root_id = id ∧ nd.element_id = id) := by
  intro es
  induction es with
  | nil =>
    intro st hst
    refine ⟨le_rfl, [], rfl, ?_, by simp [keysOf], ?_, ?_⟩
    · intro k
      simp only [keysOf, List.map_nil, List.not_mem_nil, false_iff]
      show ¬ (st.1 ≤ k ∧ k < st.1)
      omega
    · intro pr hpr
      simp at hpr
    · intro id hid
      have hid2 : id ∈ ([] : List Nat) := hid
      simp at hid2
  | cons hd rest ih =>
    obtain ⟨r, e⟩ := hd
    intro st hst
    obtain ⟨hid, hlt, news1, heq1, hseg1, nd, hndmem, hndpar, hndel,
      hndroot⟩ := add_block_element_spec EMPTY_NODE none e r st hst
    rw [resolveRoot_zero] at hseg1 hndroot
    obtain ⟨hk1, hnd1, hn1⟩ := hseg1
    have hst1 : (add_block_element EMPTY_NODE none e r st).2.1 ≠
        EMPTY_NODE := by
      intro h0
      rw [h0] at hlt
      unfold EMPTY_NODE at hlt hst
      omega
    obtain ⟨hle2, news2, heq2, hkeys2, hnd2, hnodes2, hids2⟩ :=
      ih (add_block_element EMPTY_NODE none e r st).2 hst1
    have hbig1 : (add_page_elements ((r, e) :: rest) st).1 =
        (add_block_element EMPTY_NODE none e r st).1 ::
          (add_page_elements rest
            (add_block_element EMPTY_NODE none e r st).2).1 := rfl
    have hbig2 : (add_page_elements ((r, e) :: rest) st).2.1 =
        (add_page_elements rest
          (add_block_element EMPTY_NODE none e r st).2).2.1 := rfl
    have hbig3 : (add_page_elements ((r, e) :: rest) st).2.2 =
        (add_page_elements rest
          (add_block_element EMPTY_NODE none e r st).2).2.2 := rfl
    rw [hbig1, hbig2, hbig3]
    have hmem_lift : ∀ k, k ∈ keysOf news1 →
        k ∈ keysOf (news2 ++ news1) := by
      intro k hk
      rw [keysOf_append]
      exact List.mem_append.mpr (Or.inr hk)
    have hmem_lift2 : ∀ k, k ∈ keysOf news2 →
        k ∈ keysOf (news2 ++ news1) := by
      intro k hk
      rw [keysOf_append]
      exact List.mem_append.mpr (Or.inl hk)
    refine ⟨by omega, news2 ++ news1, ?_, ?_, ?_, ?_, ?_⟩
    · rw [heq2, heq1, List.append_assoc]
    · intro k
      rw [keysOf_append]
      simp only [List.mem_append, hkeys2 k, hk1 k]
      omega
    · rw [keysOf_append]
      refine hnd2.append hnd1 ?_
      intro k hkB hkA
      have h1 := (hkeys2 k).mp hkB
      have h2 := (hk1 k).mp hkA
      omega
    · intro pr hpr
      rcases List.mem_append.mp hpr with h2 | h1
      · obtain ⟨x1, x2, x3, x4⟩ := hnodes2 pr h2
        refine ⟨x1, hmem_lift2 _ x2, ?_, x4⟩
        intro ch hch
        obtain ⟨c1, c2⟩ := x3 ch hch
        exact ⟨c1, hmem_lift2 _ c2⟩
      · obtain ⟨x1, x2, x3, x4⟩ := hn1 pr h1
        refine ⟨x1, ?_, ?_, x4⟩
        · rw [x2]
          refine hmem_lift _ ((hk1 st.1).mpr ⟨le_rfl, hlt⟩)
        · intro ch hch
          obtain ⟨c1, c2, c3⟩ := x3 ch hch
          exact ⟨c1, hmem_lift _ c3⟩
    · intro id hmem
      rcases List.mem_cons.mp hmem with rfl | h2
      · refine ⟨nd, ?_, hndpar, ?_, ?_⟩
        · exact List.mem_append.mpr (Or.inr (hid ▸ hndmem))
        · rw [hndroot, hid]
        · rw [hndel, hid]
      · obtain ⟨nd2, hm, hp, hr2, he2⟩ := hids2 id h2
        exact ⟨nd2, List.mem_append.mpr (Or.inl hm), hp, hr2, he2⟩

theorem from_page_TreeWF (pg : Page) :
    TreeWF (ElementTree.from_page pg) := by
  obtain ⟨hle, news, heq, hkeys, hnodup, hnodes, hids⟩ :=
    add_page_elements_spec pg.elements (EMPTY_NODE + 1, [])
      (by simp [EMPTY_NODE])
  have ht1 : (ElementTree.from_page pg).nodes = news := by
    have h0 : (add_page_elements pg.elements
        (EMPTY_NODE + 1, ([] : List (Nat × ElementNode)))).2.2 = news := by
      rw [heq]
      simp
    exact h0
  refine ⟨?_, ?_, ?_, ?_⟩
  · rw [ht1]
    exact hnodup
  · rw [ht1]
    intro h0
    have h1 := (hkeys EMPTY_NODE).mp h0
    unfold EMPTY_NODE at h1
    omega
  · rw [ht1]
    intro pr hpr
    obtain ⟨x1, x2, x3, x4⟩ := hnodes pr hpr
    exact ⟨x1, x2, x3, x4⟩
  · intro id hid
    have hid2 : id ∈ (add_page_elements pg.elements
        (EMPTY_NODE + 1, ([] : List (Nat × ElementNode)))).1 := hid
    obtain ⟨nd, hm, hp, hr, he⟩ := hids id hid2
    refine ⟨nd, ?_, hp, hr⟩
    rw [ht1]
    exact hm

theorem lookup_mem {ns : List (Nat × ElementNode)} {k : Nat}
    {v : ElementNode} (h : ns.lookup k = some v) : (k, v) ∈ ns := by
  induction ns with
  | nil => simp [List.lookup] at h
  | cons p tl ih =>
    obtain ⟨k2, v2⟩ := p
    by_cases hk : k = k2
    · subst hk
      simp [List.lookup] at h
      rw [h]
      exact List.mem_cons_self _ _
    · have h2 : tl.lookup k = some v := by
        simpa [List.lookup, beq_false_of_ne hk] using h
      exact List.mem_cons_of_mem _ (ih h2)

theorem exists_lookup_of_mem_keys {ns : List (Nat × ElementNode)} {k : Nat}
    (h : k ∈ keysOf ns) : ∃ v, ns.lookup k = some v := by
  induction ns with
  | nil => simp [keysOf] at h
  | cons p tl ih =>
    obtain ⟨k2, v2⟩ := p
    by_cases hk : k = k2
    · subst hk
      exact ⟨v2, by simp [List.lookup]⟩
    · rw [keysOf_cons] at h
      rcases List.mem_cons.mp h with h1 | h2
      · exact absurd h1 hk
      · obtain ⟨v, hv⟩ := ih h2
        exact ⟨v, by simpa [List.lookup, beq_false_of_ne hk] using hv⟩

theorem lookup_of_mem_nodup {ns : List (Nat × ElementNode)} {k : Nat}
    {v : ElementNode} (hnd : (keysOf ns).Nodup) (h : (k, v) ∈ ns) :
    ns.lookup k = some v := by
  induction ns with
  | nil => simp at h
  | cons p tl ih =>
    obtain ⟨k2, v2⟩ := p
    rw [keysOf_cons] at hnd
    rcases List.mem_cons.mp h with h1 | h2
    · obtain ⟨hk, hv⟩ := Prod.mk.injEq .. ▸ h1
      subst hk
      subst hv
      simp [List.lookup]
    · by_cases hk : k = k2
      · subst hk
        exact absurd (List.mem_map.mpr ⟨(k, v), h2, rfl⟩)
          (List.nodup_cons.mp hnd).1
      · have := ih (List.nodup_cons.mp hnd).2 h2
        simpa [List.lookup, beq_false_of_ne hk] using this

/-- C5: every tree produced by from_page is a forest: the sentinel id 0
is never used, node ids are distinct keys of the node map and each node
records its own key as element_id, every root has no parent and is its
own root, every child id strictly exceeds its parent's id (so there are
no cycles), and children ids are strictly increasing, which is the
source order of the children under the single increasing counter. -/
theorem spec_C5 (pg : Page) :
    (keysOf (ElementTree.from_page pg).nodes).Nodup ∧
    EMPTY_NODE ∉ keysOf (ElementTree.from_page pg).nodes ∧
    (∀ pr ∈ (ElementTree.from_page pg).nodes,
      pr.2.element_id = pr.1 ∧
      (∀ ch ∈ pr.2.children_ids, pr.1 < ch) ∧
      pr.2.children_ids.Chain' (· < ·)) ∧
    (∀ id ∈ (ElementTree.from_page pg).root_nodes,
      ∃ n, (ElementTree.from_page pg).getNode id = some n ∧
        n.parent_id = none ∧ n.root_id = id) := by
  obtain ⟨hnd, h0, hnodes, hroots⟩ := from_page_TreeWF pg
  refine ⟨hnd, h0, ?_, ?_⟩
  · intro pr hpr
    obtain ⟨x1, x2, x3, x4⟩ := hnodes pr hpr
    exact ⟨x1, fun ch hch => (x3 ch hch).1, x4⟩
  · intro id hid
    obtain ⟨n, hm, hp, hr⟩ := hroots id hid
    exact ⟨n, lookup_of_mem_nodup hnd hm, hp, hr⟩

/-- C9: for every tree built by from_page and every node in it, the
root id resolves in the node map, so root_for cannot hit its panicking
expect branch. -/
theorem spec_C9 (pg : Page) :
    ∀ pr ∈ (ElementTree.from_page pg).nodes,
      ∃ n, (ElementTree.from_page pg).root_forOpt pr.2 = some n := by
  obtain ⟨hnd, h0, hnodes, hroots⟩ := from_page_TreeWF pg
  intro pr hpr
  obtain ⟨x1, x2, x3, x4⟩ := hnodes pr hpr
  exact exists_lookup_of_mem_keys x2

theorem length_filter_gt_mono (l : List Nat) (k1 k2 : Nat) (h : k1 ≤ k2) :
    (l.filter (fun x => k2 < x)).length ≤
      (l.filter (fun x => k1 < x)).length := by
  induction l with
  | nil => simp
  | cons a t ih =>
    simp only [List.filter_cons]
    by_cases h2 : k2 < a
    · have h1 : k1 < a := by omega
      rw [if_pos (decide_eq_true h2), if_pos (decide_eq_true h1)]
      simp only [List.length_cons]
      omega
    · by_cases h1 : k1 < a
      · rw [if_neg (by rw [decide_eq_true_eq]; exact h2),
          if_pos (decide_eq_true h1)]
        simp only [List.length_cons]
        omega
      · rw [if_neg (by rw [decide_eq_true_eq]; exact h2),
          if_neg (by rw [decide_eq_true_eq]; exact h1)]
        exact ih

theorem length_filter_gt_strict (l : List Nat) (k1 k2 : Nat) (h : k1 < k2)
    (hk : k2 ∈ l) :
    (l.filter (fun x => k2 < x)).length <
      (l.filter (fun x => k1 < x)).length := by
  induction l with
  | nil => simp at hk
  | cons a t ih =>
    simp only [List.filter_cons]
    rcases List.mem_cons.mp hk with rfl | hk2
    · have h2 : ¬ k2 < k2 := by omega
      have h1 : k1 < k2 := h
      rw [if_neg (by rw [decide_eq_true_eq]; exact h2),
        if_pos (decide_eq_true h1)]
      simp only [List.length_cons]
      have := length_filter_gt_mono t k1 k2 (by omega)
      omega
    · have hmono := ih hk2
      by_cases h2 : k2 < a
      · have h1 : k1 < a := by omega
        rw [if_pos (decide_eq_true h2), if_pos (decide_eq_true h1)]
        simp only [List.length_cons]
        omega
      · by_cases h1 : k1 < a
        · rw [if_neg (by rw [decide_eq_true_eq]; exact h2),
            if_pos (decide_eq_true h1)]
          simp only [List.length_cons]
          omega
        · rw [if_neg (by rw [decide_eq_true_eq]; exact h2),
            if_neg (by rw [decide_eq_true_eq]; exact h1)]
          exact hmono

theorem children_for_mem (t : ElementTree) (hT : TreeWF t)
    (n c : ElementNode) (hn : (n.element_id, n) ∈ t.nodes)
    (hc : c ∈ t.children_for n) :
    (c.element_id, c) ∈ t.nodes ∧ n.element_id < c.element_id := by
  obtain ⟨hnd, h0, hnodes, hroots⟩ := hT
  obtain ⟨ch, hch, hlook⟩ := List.mem_filterMap.mp hc
  have hmemc := lookup_mem hlook
  have hcel : c.element_id = ch := (hnodes (ch, c) hmemc).1
  have hlt : n.element_id < ch :=
    ((hnodes (n.element_id, n) hn).2.2.1 ch hch).1
  constructor
  · rw [hcel]
    exact hmemc
  · rw [hcel]
    exact hlt

theorem descend_reaches (t : ElementTree) (hT : TreeWF t) (p : Position) :
    ∀ (fuel : Nat) (curr : ElementNode),
      (curr.element_id, curr) ∈ t.nodes →
      ((keysOf t.nodes).filter
        (fun x => curr.element_id < x)).length < fuel →
      DescendsTo t p curr (descend t p fuel curr) := by
  intro fuel
  induction fuel with
  | zero =>
    intro curr _ hcount
    exact absurd hcount (by omega)
  | succ fuel ih =>
    intro curr hcurr hcount
    cases hfind : (t.children_for curr).find?
        (fun n => n.region.contains p) with
    | none =>
      have hd : descend t p (fuel + 1) curr = curr := by
        show (match (t.children_for curr).find?
            (fun n => n.region.contains p) with
          | some next => descend t p fuel next
          | none => curr) = curr
        rw [hfind]
      rw [hd]
      exact DescendsTo.done curr hfind
    | some next =>
      have hmem := List.mem_of_find?_eq_some hfind
      obtain ⟨hnext_mem, hlt⟩ := children_for_mem t hT curr next hcurr hmem
      have hkeys : next.element_id ∈ keysOf t.nodes :=
        List.mem_map.mpr ⟨(next.element_id, next), hnext_mem, rfl⟩
      have hcount2 : ((keysOf t.nodes).filter
          (fun x => next.element_id < x)).length < fuel := by
        have hstrict := length_filter_gt_strict (keysOf t.nodes)
          curr.element_id next.element_id hlt hkeys
        omega
      have hd : descend t p (fuel + 1) curr = descend t p fuel next := by
        show (match (t.children_for curr).find?
            (fun n => n.region.contains p) with
          | some next2 => descend t p fuel next2
          | none => curr) = descend t p fuel next
        rw [hfind]
      rw [hd]
      exact DescendsTo.step curr next (descend t p fuel next) hfind
        (ih next hnext_mem hcount2)

theorem descendsTo_contains (t : ElementTree) (p : Position)
    (a b : ElementNode) (h : DescendsTo t p a b) :
    a.region.contains p = true → b.region.contains p = true := by
  induction h with
  | done n _ => exact fun ha => ha
  | step a2 b2 c2 hstep hbc ih =>
    intro _
    refine ih ?_
    have := List.find?_some hstep
    simpa using this

/-- C4: for every position and every tree built by from_page,
find_deepest_at returns none exactly when no root node's region
contains the position; otherwise it returns the node reached from the
containing root by repeatedly descending to the first child whose
region contains the position until no child matches, and the returned
node's region contains the position. -/
theorem spec_C4 (pg : Page) (p : Position) :
    ((ElementTree.from_page pg).find_deepest_at p = none ↔
      ∀ n ∈ (ElementTree.from_page pg).rootNodesList,
        n.region.contains p = false) ∧
    (∀ n, (ElementTree.from_page pg).find_deepest_at p = some n →
      ∃ rt, (ElementTree.from_page pg).find_root_at p = some rt ∧
        DescendsTo (ElementTree.from_page pg) p rt n ∧
        n.region.contains p = true) := by
  have hT := from_page_TreeWF pg
  constructor
  · rw [ElementTree.find_deepest_at, Option.map_eq_none',
      ElementTree.find_root_at, List.find?_eq_none]
    constructor
    · intro h n hn
      have := h n hn
      simpa using this
    · intro h n hn
      simp [h n hn]
  · intro n hn
    rw [ElementTree.find_deepest_at] at hn
    obtain ⟨rt, hrt, hdesc⟩ := Option.map_eq_some'.mp hn
    have hrt_mem := List.mem_of_find?_eq_some
      (by rw [ElementTree.find_root_at] at hrt; exact hrt)
    have hrt_contains : rt.region.contains p = true := by
      have := List.find?_some
        (by rw [ElementTree.find_root_at] at hrt; exact hrt)
      simpa using this
    obtain ⟨id, hidmem, hlook⟩ := List.mem_filterMap.mp hrt_mem
    have hpair := lookup_mem hlook
    have hrtel : rt.element_id = id := (hT.2.2.1 (id, rt) hpair).1
    have hrtmem2 : (rt.element_id, rt) ∈
        (ElementTree.from_page pg).nodes := by
      rw [hrtel]
      exact hpair
    have hfuel : ((keysOf (ElementTree.from_page pg).nodes).filter
        (fun x => rt.element_id < x)).length <
        (ElementTree.from_page pg).nodes.length + 1 := by
      have h1 := List.length_filter_le
        (fun x => decide (rt.element_id < x))
        (keysOf (ElementTree.from_page pg).nodes)
      have h2 : (keysOf (ElementTree.from_page pg).nodes).length =
          (ElementTree.from_page pg).nodes.length := by
        simp [keysOf]
      omega
    have hreach := descend_reaches (ElementTree.from_page pg) hT p
      ((ElementTree.from_page pg).nodes.length + 1) rt hrtmem2 hfuel
    rw [hdesc] at hreach
    refine ⟨rt, hrt, hreach, ?_⟩
    exact descendsTo_contains (ElementTree.from_page pg) p rt n hreach
      hrt_contains

/-- The tree built from the witness page, written out; it discharges the
hypotheses of the tree witnesses with one evaluation of from_page. -/
theorem from_page_witPage :
    ElementTree.from_page witPage =
      ⟨witPage, [1, 2],
        [(2, ⟨2, none, 2,
            .Block (.List
              [(⟨⟨2, 1⟩, ⟨2, 7⟩⟩,
                [(⟨⟨2, 4⟩, ⟨2, 7⟩⟩,
                  .Sublist [(⟨⟨2, 4⟩, ⟨2, 7⟩⟩, [])])])]),
            ⟨⟨2, 1⟩, ⟨2, 7⟩⟩, [3]⟩),
          (3, ⟨2, some 2, 3,
            .Block (.List [(⟨⟨2, 4⟩, ⟨2, 7⟩⟩, [])]),
            ⟨⟨2, 4⟩, ⟨2, 7⟩⟩, []⟩),
          (1, ⟨1, none, 1, .Block .Divider, ⟨⟨1, 1⟩, ⟨1, 3⟩⟩, []⟩)]⟩ := by
  simp only [ElementTree.from_page, witPage, add_page_elements,
    add_block_element, resolveRoot, EMPTY_NODE, add_list_items.eq_1,
    add_list_items.eq_2, add_item_contents.eq_1, add_item_contents.eq_3]
  rfl

/-- Witness for C5 at the witness page: the divider node is a
well-formed entry of the built tree. -/
theorem spec_C5_witness :
    EMPTY_NODE ∉ keysOf (ElementTree.from_page witPage).nodes ∧
    ((1, (⟨1, none, 1, ElementRef.Block BlockElement.Divider,
        ⟨⟨1, 1⟩, ⟨1, 3⟩⟩, []⟩ : ElementNode)).2.element_id =
      (1, (⟨1, none, 1, ElementRef.Block BlockElement.Divider,
        ⟨⟨1, 1⟩, ⟨1, 3⟩⟩, []⟩ : ElementNode)).1 ∧
      (∀ ch ∈ (1, (⟨1, none, 1, ElementRef.Block BlockElement.Divider,
        ⟨⟨1, 1⟩, ⟨1, 3⟩⟩, []⟩ : ElementNode)).2.children_ids,
        (1, (⟨1, none, 1, ElementRef.Block BlockElement.Divider,
          ⟨⟨1, 1⟩, ⟨1, 3⟩⟩, []⟩ : ElementNode)).1 < ch) ∧
      (1, (⟨1, none, 1, ElementRef.Block BlockElement.Divider,
        ⟨⟨1, 1⟩, ⟨1, 3⟩⟩, []⟩ : ElementNode)).2.children_ids.Chain'
        (· < ·)) :=
  ⟨(spec_C5 witPage).2.1,
    (spec_C5 witPage).2.2.1
      (1, ⟨1, none, 1, ElementRef.Block BlockElement.Divider,
        ⟨⟨1, 1⟩, ⟨1, 3⟩⟩, []⟩)
      (by rw [from_page_witPage]
          exact .tail _ (.tail _ (.head _)))⟩

/-- Witness for C9 at the witness page: the divider node's root id
resolves. -/
theorem spec_C9_witness :
    ∃ n, (ElementTree.from_page witPage).root_forOpt
      ⟨1, none, 1, ElementRef.Block BlockElement.Divider,
        ⟨⟨1, 1⟩, ⟨1, 3⟩⟩, []⟩ = some n :=
  spec_C9 witPage
    (1, ⟨1, none, 1, ElementRef.Block BlockElement.Divider,
      ⟨⟨1, 1⟩, ⟨1, 3⟩⟩, []⟩)
    (by rw [from_page_witPage]
        exact .tail _ (.tail _ (.head _)))

/-- Witness for C4 at the witness page: the deepest node at position
(2, 4) is the sub-list node, reached by descending one step from the
containing list root, and its region contains the position. -/
theorem spec_C4_witness :
    ∃ rt, (ElementTree.from_page witPage).find_root_at ⟨2, 4⟩ =
        some rt ∧
      DescendsTo (ElementTree.from_page witPage) ⟨2, 4⟩ rt
        ⟨2, some 2, 3,
          ElementRef.Block (BlockElement.List [(⟨⟨2, 4⟩, ⟨2, 7⟩⟩, [])]),
          ⟨⟨2, 4⟩, ⟨2, 7⟩⟩, []⟩ ∧
      (⟨2, some 2, 3,
        ElementRef.Block (BlockElement.List [(⟨⟨2, 4⟩, ⟨2, 7⟩⟩, [])]),
        ⟨⟨2, 4⟩, ⟨2, 7⟩⟩, []⟩ : ElementNode).region.contains ⟨2, 4⟩ =
        true :=
  (spec_C4 witPage ⟨2, 4⟩).2
    ⟨2, some 2, 3,
      ElementRef.Block (BlockElement.List [(⟨⟨2, 4⟩, ⟨2, 7⟩⟩, [])]),
      ⟨⟨2, 4⟩, ⟨2, 7⟩⟩, []⟩
    (by rw [from_page_witPage]; rfl)

end VimwikiSpec
